import Mathlib

/-! The libtorrent client (pkg/libtorrent/client.go): a verification development.

Go strings are byte sequences; they are embedded as lists of natural numbers
(one number per byte).  The pieces of the Go standard library that
client.go calls on strings (package strings, path, unicode, unicode/utf8) are
embedded next to the functions of client.go itself.
-/

set_option autoImplicit false
set_option maxRecDepth 8192

namespace Libtorrent

/-! ## Go strings and the standard-library functions used by client.go -/

/-- A Go string: its bytes, in order. -/
abbrev GoString := List Nat

deriving instance DecidableEq for Except

/-- Go unicode/utf8: RuneError, the replacement code point U+FFFD. -/
def RuneError : Nat := 0xFFFD

/-- Go unicode/utf8: RuneSelf; bytes below it are single-byte runes. -/
def RuneSelf : Nat := 0x80

/-- Go unicode/utf8 EncodeRune: the UTF-8 bytes of a code point (surrogates and
out-of-range values are encoded as RuneError). -/
def EncodeRune (r : Nat) : GoString :=
  if r < 0x80 then [r]
  else if r < 0x800 then [0xC0 + r / 64, 0x80 + r % 64]
  else if (0xD800 ≤ r ∧ r ≤ 0xDFFF) ∨ 0x10FFFF < r then [0xEF, 0xBF, 0xBD]
  else if r < 0x10000 then [0xE0 + r / 4096, 0x80 + r / 64 % 64, 0x80 + r % 64]
  else [0xF0 + r / 262144, 0x80 + r / 4096 % 64, 0x80 + r / 64 % 64, 0x80 + r % 64]

/-- The Go string denoted by a source literal: the UTF-8 encoding of its
characters. -/
def str (s : String) : GoString :=
  s.toList.flatMap (fun c => EncodeRune c.toNat)

/-- Go utf8.RuneStart: the byte is not a continuation byte. -/
def RuneStart (b : Nat) : Bool := !(0x80 ≤ b && b ≤ 0xBF)

/-- Go unicode/utf8, table first: the size of the sequence a leading byte in
0xC2..0xF4 announces. -/
def seqSize (s0 : Nat) : Nat := if s0 < 0xE0 then 2 else if s0 < 0xF0 then 3 else 4

/-- Go unicode/utf8, table acceptRanges: the lowest second byte accepted after
the leading byte. -/
def acceptLo (s0 : Nat) : Nat := if s0 = 0xE0 then 0xA0 else if s0 = 0xF0 then 0x90 else 0x80

/-- Go unicode/utf8, table acceptRanges: the highest second byte accepted after
the leading byte. -/
def acceptHi (s0 : Nat) : Nat := if s0 = 0xED then 0x9F else if s0 = 0xF4 then 0x8F else 0xBF

/-- Go utf8.DecodeRuneInString: the first rune of the string and its width in
bytes.  An empty string gives (RuneError, 0); an invalid or truncated encoding
gives (RuneError, 1).  As in the Go source: the first byte gives the size of
the sequence and the accept range of the second byte (so overlong forms and
surrogates are rejected); the later bytes must lie in 0x80..0xBF. -/
def DecodeRuneInString (s : GoString) : Nat × Nat :=
  let n := s.length
  if n < 1 then (RuneError, 0)
  else
    let s0 := s.getD 0 0
    if s0 < 0x80 then (s0, 1)
    else if s0 < 0xC2 ∨ 0xF4 < s0 then (RuneError, 1)
    else
      let sz := seqSize s0
      if n < sz then (RuneError, 1)
      else
        let s1 := s.getD 1 0
        if s1 < acceptLo s0 ∨ acceptHi s0 < s1 then (RuneError, 1)
        else if sz ≤ 2 then (s0 % 32 * 64 + s1 % 64, 2)
        else
          let s2 := s.getD 2 0
          if s2 < 0x80 ∨ 0xBF < s2 then (RuneError, 1)
          else if sz ≤ 3 then (s0 % 16 * 4096 + s1 % 64 * 64 + s2 % 64, 3)
          else
            let s3 := s.getD 3 0
            if s3 < 0x80 ∨ 0xBF < s3 then (RuneError, 1)
            else (s0 % 8 * 262144 + s1 % 64 * 4096 + s2 % 64 * 64 + s3 % 64, 4)

/-- The backwards scan of Go utf8.DecodeLastRuneInString.  The argument list
holds the bytes below the last one, nearest first; steps is the number of
positions the scan may still visit (it never goes below end - UTFMax); k is the
number of bytes already in the candidate slice.  The result is the length of
the slice s[start:end] that is then decoded. -/
def lastRuneSpan : List Nat → Nat → Nat → Nat
  | [], _, k => k
  | _ :: _, 0, k => k + 1
  | b :: bs, steps + 1, k => if RuneStart b then k + 1 else lastRuneSpan bs steps (k + 1)

/-- Go utf8.DecodeLastRuneInString: the last rune of the string and its width.
An empty string gives (RuneError, 0).  A last byte below RuneSelf is its own
rune.  Otherwise the scan looks back (at most UTFMax bytes in all) for a rune
start, decodes forward from there, and gives (RuneError, 1) unless that decoding
ends exactly at the end of the string. -/
def DecodeLastRuneInString (s : GoString) : Nat × Nat :=
  match s.reverse with
  | [] => (RuneError, 0)
  | b :: bs =>
    if b < RuneSelf then (b, 1)
    else
      let k := lastRuneSpan bs 3 1
      let d := DecodeRuneInString (s.drop (s.length - k))
      if d.2 = k then d else (RuneError, 1)

/-- Go unicode.IsSpace: the code points with the Unicode White_Space
property. -/
def IsSpace (r : Nat) : Bool :=
  (0x09 ≤ r && r ≤ 0x0D) || r = 0x20 || r = 0x85 || r = 0xA0 || r = 0x1680 ||
  (0x2000 ≤ r && r ≤ 0x200A) || r = 0x2028 || r = 0x2029 || r = 0x202F ||
  r = 0x205F || r = 0x3000

/-- The loop of Go strings.TrimLeftFunc with unicode.IsSpace (indexFunc with
truth = false, then s[i:]): runes are decoded from the front and dropped while
they are white space. -/
def trimLeftLoop : Nat → GoString → GoString
  | 0, s => s
  | fuel + 1, s =>
    match s with
    | [] => []
    | _ :: _ =>
      let d := DecodeRuneInString s
      if IsSpace d.1 then trimLeftLoop fuel (s.drop d.2) else s

/-- Go strings.TrimLeftFunc(s, unicode.IsSpace).  Every decoding step consumes
at least one byte, so len(s) iterations always suffice. -/
def TrimLeftSpace (s : GoString) : GoString := trimLeftLoop s.length s

/-- The loop of Go strings lastIndexFunc with unicode.IsSpace and truth = false,
over the prefix s[0:i] still to be examined: the byte index at which the last
rune that is not white space starts, or none (Go: -1). -/
def lastIndexLoop : Nat → GoString → Option Nat
  | 0, _ => none
  | fuel + 1, p =>
    match p with
    | [] => none
    | _ :: _ =>
      let d := DecodeLastRuneInString p
      if IsSpace d.1 then lastIndexLoop fuel (p.take (p.length - d.2))
      else some (p.length - d.2)

/-- Go strings.TrimRightFunc(s, unicode.IsSpace): cut after the last rune that
is not white space.  The width of that rune is 1 when its first byte is below
RuneSelf, and the width of the forward decoding at that index otherwise. -/
def TrimRightSpace (s : GoString) : GoString :=
  match lastIndexLoop s.length s with
  | none => []
  | some i =>
    match s.drop i with
    | [] => s.take (i + 1)
    | b :: _ =>
      if RuneSelf ≤ b then s.take (i + (DecodeRuneInString (s.drop i)).2)
      else s.take (i + 1)

/-- Go strings.TrimSpace: all leading and trailing white space removed, as
defined by Unicode, which is TrimFunc(s, unicode.IsSpace), that is
TrimRightFunc(TrimLeftFunc(s, f), f).  (The loops over ASCII bytes at the start
of the Go source are a shortcut to the same result.) -/
def TrimSpace (s : GoString) : GoString := TrimRightSpace (TrimLeftSpace s)

/-- Go strings.HasPrefix: s begins with prefix. -/
def HasPrefix : GoString → GoString → Bool
  | _, [] => true
  | [], _ :: _ => false
  | a :: s, b :: p => a = b && HasPrefix s p

/-- Go strings.Contains: substr occurs within s. -/
def Contains : GoString → GoString → Bool
  | [], sub => HasPrefix [] sub
  | a :: s, sub => HasPrefix (a :: s) sub || Contains s sub

/-- The loop of Go strings.ReplaceAll for a non-empty old: left to right, each
non-overlapping occurrence of old is replaced by new. -/
def replaceLoop : Nat → GoString → GoString → GoString → GoString
  | 0, s, _, _ => s
  | fuel + 1, s, old, new =>
    match s with
    | [] => []
    | a :: rest =>
      if HasPrefix s old then new ++ replaceLoop fuel (s.drop old.length) old new
      else a :: replaceLoop fuel rest old new

/-- Go strings.ReplaceAll(s, old, new) for a non-empty old (the only use in
client.go).  An empty old is not modelled: the string is returned as it is. -/
def ReplaceAll (s old new : GoString) : GoString :=
  match old with
  | [] => s
  | _ :: _ => replaceLoop s.length s old new

/-- The loop of Go path.Ext, over the reversed path: walk back from the end
until a slash; at the first dot return the suffix that starts there. -/
def extLoop : List Nat → GoString → GoString
  | [], _ => []
  | c :: before, acc =>
    if c = 0x2F then []
    else if c = 0x2E then c :: acc
    else extLoop before (c :: acc)

/-- Go path.Ext: the suffix beginning at the final dot in the final
slash-separated element of path; empty if there is no dot. -/
def Ext (path : GoString) : GoString := extLoop path.reverse []

/-! ## Data model (the parts of anacrolix/torrent that client.go reads) -/

/-- The type metainfo.Hash: the bytes of an info hash (20 of them). -/
structure Hash where
  bytes : List Nat
  deriving DecidableEq, Repr

/-- One lower-case hexadecimal digit. -/
def hexDigit (n : Nat) : Nat := if n < 10 then 0x30 + n else 0x57 + n

/-- The method Hash.String (= HexString, fmt verb %x): two lower-case
hexadecimal digits per byte. -/
def Hash.HexString (h : Hash) : GoString :=
  h.bytes.flatMap (fun b => [hexDigit (b / 16 % 16), hexDigit (b % 16)])

/-- The method Hash.AsString: string(h[:]), the raw bytes as a string. -/
def Hash.AsString (h : Hash) : GoString := h.bytes

/-- The type torrent.File, as far as client.go reads it. -/
structure File where
  path : GoString
  displayPath : GoString
  deriving DecidableEq, Repr

/-- The type torrent.Torrent, once its info is there (GotInfo has fired): the
waits on GotInfo in client.go then return at once and are left out.  No
creation date is kept: client.go reads it through Metainfo(), which builds a
new MetaInfo at each call (see handlerLoop). -/
structure Torrent where
  infoHash : Hash
  files : List File
  deriving DecidableEq, Repr

/-- The struct Client: the port of the stream server and the torrents held by
the engine (torrentClient.Torrents()). -/
structure Client where
  Port : Int
  torrentClient : List Torrent
  deriving DecidableEq, Repr

/-! ## client.go -/

/-- The loop of GetVideoFile over t.Files(): the switch on path.Ext(f.Path())
returns f on one of the sixteen listed extensions and continues otherwise. -/
def getVideoFileLoop : List File → Option File
  | [] => none
  | f :: rest =>
    let ext := Ext f.path
    if ext = str ".mp4" ∨ ext = str ".mkv" ∨ ext = str ".avi" ∨ ext = str ".avif" ∨
        ext = str ".av1" ∨ ext = str ".mov" ∨ ext = str ".flv" ∨ ext = str ".f4v" ∨
        ext = str ".webm" ∨ ext = str ".wmv" ∨ ext = str ".mpeg" ∨ ext = str ".mpg" ∨
        ext = str ".mlv" ∨ ext = str ".hevc" ∨ ext = str ".flac" ∨ ext = str ".flic" then
      some f
    else getVideoFileLoop rest

/-- GetVideoFile (client.go 72-83); none is the nil pointer. -/
def GetVideoFile (t : Torrent) : Option File := getVideoFileLoop t.files

/-- One call of http.ServeContent as seen by the client: the name, the
modification time, the Content-Type header at the time of the call (when it is
set ServeContent keeps it; only when unset would it choose a type itself) and
the file whose reader is served. -/
structure Served where
  name : GoString
  modtime : Int
  contentType : Option GoString
  file : File
  deriving DecidableEq, Repr

/-- The http.ResponseWriter: the Content-Type header and what has been served. -/
structure ResponseWriter where
  contentType : Option GoString
  served : List Served
  deriving DecidableEq, Repr

/-- How one run of the stream handler ends.  returned: the handler returned;
the writer and the lines printed on standard output are given.  fatal:
log.Fatal was called (the message is logged and the process exits with status
1).  nilDereference: a method was called on a nil File pointer (a run-time
panic in the handler; nothing has been written to the response). -/
inductive Outcome
  | returned (w : ResponseWriter) (out : List GoString)
  | fatal (msg : GoString)
  | nilDereference (w : ResponseWriter) (out : List GoString)
  deriving DecidableEq, Repr

/-- The status line the client of the stream endpoint receives, for a plain GET
without Range or conditional headers.  When the handler returns, net/http sends
200 OK: with the served content, or, when the handler wrote nothing, with an
empty body.  After log.Fatal or a panic no response is sent. -/
def Outcome.statusCode : Outcome → Option Nat
  | .returned _ _ => some 200
  | .fatal _ => none
  | .nilDereference _ _ => none

/-- The Content-Type of the response, if a response with content was produced. -/
def Outcome.contentType : Outcome → Option GoString
  | .returned w _ => (w.served.head?).bind (fun s => s.contentType)
  | .fatal _ => none
  | .nilDereference _ _ => none

/-- The sanitisation of the ep token (client.go 89-90): strings.TrimSpace, then
strings.ReplaceAll(ep, "\n", ""). -/
def sanitizeEp (ep : GoString) : GoString :=
  ReplaceAll (TrimSpace ep) (str "\n") []

/-- The line fmt.Printf("%s - %s - eq [%v]\n", ih, ep, ih == ep) prints. -/
def logLine (ih ep : GoString) : GoString :=
  ih ++ str " - " ++ ep ++ str " - eq [" ++ (if ih = ep then str "true" else str "false") ++
    str "]\n"

/-- The loop of handler over the torrents (client.go 96-106).  The torrents
are taken with their info there, so the wait on ff.GotInfo() returns at once.
On a match: f := GetVideoFile(ff), the header is set to the constant
"video/mp4", and http.ServeContent is called with f.DisplayPath() as an
argument, which dereferences f.  The modification time handed to ServeContent
is time.Unix(f.Torrent().Metainfo().CreationDate, 0): Metainfo() builds a new
MetaInfo at each call and the engine stamps it with the current time, so the
value is the clock reading at that call, here now ff.  The loop does not stop
at a match. -/
def handlerLoop (now : Torrent → Int) (ep : GoString) :
    List Torrent → ResponseWriter → List GoString → Outcome
  | [], w, out => .returned w out
  | ff :: rest, w, out =>
    let ih := ff.infoHash.HexString
    let out := out ++ [logLine ih ep]
    if ih = ep then
      let f := GetVideoFile ff
      let w : ResponseWriter := { w with contentType := some (str "video/mp4") }
      match f with
      | none => .nilDereference w out
      | some f =>
        handlerLoop now ep rest
          { w with served := w.served ++ [⟨f.displayPath, now ff, w.contentType, f⟩] } out
    else handlerLoop now ep rest w out

/-- The stream handler (client.go 86-107).  The argument now gives, for each
torrent, the reading of time.Now().Unix() when the scan asks the engine for its
MetaInfo; the argument ep is the value of the ep query parameter, none when the
parameter is absent (Query().Get then gives the empty string). -/
def handler (c : Client) (now : Torrent → Int) (ep : Option GoString) : Outcome :=
  let ts := c.torrentClient
  let ep := ep.getD []
  let ep := sanitizeEp ep
  if ep = [] then .fatal (str "ep is empty")
  else handlerLoop now ep ts ⟨none, []⟩ []

/-- ServeTorrent (client.go 129-132):
fmt.Sprintf("http://localhost:%d/stream?ep=%s\n", c.Port, mh). -/
def ServeTorrent (c : Client) (t : Torrent) : GoString :=
  let mh := t.infoHash.HexString
  str "http://localhost:" ++ str (toString c.Port) ++ str "/stream?ep=" ++ mh ++ str "\n"

/-- AddTorrent (client.go 178-186), with the three methods it may call as
parameters: the if-chain on strings.HasPrefix(tor, "magnet") and
strings.Contains(tor, "http"). -/
def AddTorrent {α : Type} (AddMagnet AddTorrentURL AddTorrentFile : GoString → α)
    (tor : GoString) : α :=
  if HasPrefix tor (str "magnet") then AddMagnet tor
  else if Contains tor (str "http") then AddTorrentURL tor
  else AddTorrentFile tor

/-- The method of AddTorrent that was called, with its argument. -/
inductive Ingest
  | AddMagnet (magnet : GoString)
  | AddTorrentURL (url : GoString)
  | AddTorrentFile (file : GoString)
  deriving DecidableEq, Repr

/-- What http.Get hands back when it returns no error: the status code, the
bytes of the body that can be read, and the error that ends the reading when it
is not a clean end of file. -/
structure Response where
  statusCode : Nat
  body : List Nat
  bodyErr : Option GoString
  deriving DecidableEq, Repr

/-- The collaborators of the adders, outside client.go: http.Get (an error only
when no response was obtained; a response with any status is not an error),
os.Create (the error, if any), reading a local file, the metainfo decoding of
the engine (AddTorrentFromFile fails when the bytes are no metafile), and the
resolution of a magnet link by the engine. -/
structure World where
  httpGet : GoString → Except GoString Response
  osCreate : GoString → Option GoString
  readFile : GoString → Except GoString (List Nat)
  loadMetainfo : List Nat → Except GoString Torrent
  addMagnet : GoString → Except GoString Torrent

/-- The engine adding a torrent: a torrent with that info hash that is already
held is returned as it is; otherwise the new torrent is held from now on. -/
def engineAdd (c : Client) (t : Torrent) : Torrent × Client :=
  match c.torrentClient.find? (fun t0 => t0.infoHash = t.infoHash) with
  | some t0 => (t0, c)
  | none => (t, { c with torrentClient := c.torrentClient ++ [t] })

/-- AddMagnet (client.go 188-195). -/
def AddMagnet (W : World) (c : Client) (magnet : GoString) : Except GoString Torrent × Client :=
  match W.addMagnet magnet with
  | .error err => (.error err, c)
  | .ok t => let r := engineAdd c t; (.ok r.1, r.2)

/-- AddTorrentFile (client.go 197-204). -/
def AddTorrentFile (W : World) (c : Client) (file : GoString) :
    Except GoString Torrent × Client :=
  match W.readFile file with
  | .error err => (.error err, c)
  | .ok bytes =>
    match W.loadMetainfo bytes with
    | .error err => (.error err, c)
    | .ok t => let r := engineAdd c t; (.ok r.1, r.2)

/-- The loop of Go path.Base after the trailing slashes are gone, over the
reversed path: the bytes after the last slash. -/
def baseLoop : List Nat → GoString → GoString
  | [], acc => acc
  | c :: before, acc => if c = 0x2F then acc else baseLoop before (c :: acc)

/-- Go path.Base: the last element of path; "." for the empty path and "/" for
a path of slashes only. -/
def Base (path : GoString) : GoString :=
  if path = [] then str "."
  else
    let p := (path.reverse.dropWhile (fun c => c = 0x2F))
    if p = [] then str "/" else baseLoop p []

/-- AddTorrentURL (client.go 206-234): http.Get; os.Create(path.Base(url));
io.Copy of the body into the file; AddTorrentFromFile on that file, which then
holds the copied body.  The status code of the response is not read. -/
def AddTorrentURL (W : World) (c : Client) (url : GoString) :
    Except GoString Torrent × Client :=
  match W.httpGet url with
  | .error err => (.error err, c)
  | .ok resp =>
    let fname := Base url
    match W.osCreate fname with
    | some err => (.error err, c)
    | none =>
      match resp.bodyErr with
      | some err => (.error err, c)
      | none =>
        match W.loadMetainfo resp.body with
        | .error err => (.error err, c)
        | .ok t => let r := engineAdd c t; (.ok r.1, r.2)

/-- The loop of FindByInfoHhash over the torrents. -/
def findByInfoHhashLoop (infoHash : GoString) : List Torrent → Except GoString Torrent
  | [] => .error (str "No torrents match info hash: " ++ infoHash)
  | t :: rest =>
    if t.infoHash.AsString = infoHash then .ok t else findByInfoHhashLoop infoHash rest

/-- FindByInfoHhash (client.go 243-251): the comparison is with
t.InfoHash().AsString(). -/
def FindByInfoHhash (c : Client) (infoHash : GoString) : Except GoString Torrent :=
  findByInfoHhashLoop infoHash c.torrentClient


/-! ## Definitions used to state the properties -/

/-- The sixteen extensions of the switch in GetVideoFile, as a list. -/
def mediaExtensions : List GoString :=
  [str ".mp4", str ".mkv", str ".avi", str ".avif", str ".av1", str ".mov", str ".flv",
   str ".f4v", str ".webm", str ".wmv", str ".mpeg", str ".mpg", str ".mlv", str ".hevc",
   str ".flac", str ".flic"]

/-- A file named name (path and display path). -/
def fileNamed (name : String) : File := ⟨str name, str name⟩

/-- A torrent with files readme.txt and movie.mkv. -/
def torrentMkv : Torrent :=
  ⟨⟨List.replicate 20 0xAB⟩, [fileNamed "readme.txt", fileNamed "movie.mkv"]⟩

/-- A torrent with files notes.txt and clip.mp4. -/
def torrentMp4 : Torrent :=
  ⟨⟨List.replicate 20 0xCD⟩, [fileNamed "notes.txt", fileNamed "clip.mp4"]⟩

/-- A torrent whose only file is readme.txt. -/
def torrentReadme : Torrent :=
  ⟨⟨List.replicate 20 0x01⟩, [fileNamed "readme.txt"]⟩

/-- A clock that reads 1700000000 at every call. -/
def clockFixed : Torrent → Int := fun _ => 1700000000

/-- A world in which every fetch answers 500 Internal Server Error with the
body "d4:infoe", which the engine decodes as the metafile of torrentMkv. -/
def world500 : World where
  httpGet := fun _ => .ok ⟨500, str "d4:infoe", none⟩
  osCreate := fun _ => none
  readFile := fun _ => .error (str "no such file")
  loadMetainfo := fun b => if b = str "d4:infoe" then .ok torrentMkv else .error (str "bad")
  addMagnet := fun _ => .error (str "bad magnet")

/-- Go strings, table asciiSpace: the white-space bytes below RuneSelf (tab,
line feed, vertical tab, form feed, carriage return, space). -/
def asciiSpace (b : Nat) : Bool :=
  b = 0x09 || b = 0x0A || b = 0x0B || b = 0x0C || b = 0x0D || b = 0x20

/-- The loop of a Go range over a string: the runes, decoded from the front. -/
def runesLoop : Nat → GoString → List Nat
  | 0, _ => []
  | fuel + 1, s =>
    match s with
    | [] => []
    | _ :: _ =>
      let d := DecodeRuneInString s
      d.1 :: runesLoop fuel (s.drop d.2)

/-- The runes of a Go string, as a range loop over it yields them (an invalid
byte yields RuneError). -/
def runes (s : GoString) : List Nat := runesLoop s.length s

/-- The loop of Go utf8.ValidString: no decoding step fails. -/
def validLoop : Nat → GoString → Bool
  | 0, _ => true
  | fuel + 1, s =>
    match s with
    | [] => true
    | _ :: _ =>
      let d := DecodeRuneInString s
      if d = (RuneError, 1) then false else validLoop fuel (s.drop d.2)

/-- Go utf8.ValidString: the string consists entirely of valid UTF-8-encoded
runes. -/
def ValidString (s : GoString) : Bool := validLoop s.length s

/-- The string consists of white-space characters only. -/
def whiteSpaceOnly (s : GoString) : Bool := (runes s).all IsSpace

/-- The string contains no white-space character. -/
def noWhiteSpace (s : GoString) : Bool := (runes s).all (fun r => !IsSpace r)

/-- The forms a decoding can take: the string, the rune and the width. -/
inductive Decoded : GoString → Nat → Nat → Prop
  | ascii (a : Nat) (rest : GoString) : a < 0x80 → Decoded (a :: rest) a 1
  | invalid (a : Nat) (rest : GoString) : 0x80 ≤ a → Decoded (a :: rest) RuneError 1
  | two (a b : Nat) (rest : GoString) : 0xC2 ≤ a → a < 0xE0 → 0x80 ≤ b → b ≤ 0xBF →
      Decoded (a :: b :: rest) (a % 32 * 64 + b % 64) 2
  | three (a b c : Nat) (rest : GoString) : 0xE0 ≤ a → a < 0xF0 → acceptLo a ≤ b →
      b ≤ acceptHi a → 0x80 ≤ c → c ≤ 0xBF →
      Decoded (a :: b :: c :: rest) (a % 16 * 4096 + b % 64 * 64 + c % 64) 3
  | four (a b c d : Nat) (rest : GoString) : 0xF0 ≤ a → a ≤ 0xF4 → acceptLo a ≤ b →
      b ≤ acceptHi a → 0x80 ≤ c → c ≤ 0xBF → 0x80 ≤ d → d ≤ 0xBF →
      Decoded (a :: b :: c :: d :: rest)
        (a % 8 * 262144 + b % 64 * 4096 + c % 64 * 64 + d % 64) 4

/-- One well-formed character: the string is the encoding of exactly one rune,
decoded without error. -/
def ValidEnc (w : GoString) : Prop :=
  w ≠ [] ∧ DecodeRuneInString w ≠ (RuneError, 1) ∧ (DecodeRuneInString w).2 = w.length

/-- One white-space character: the string is the encoding of exactly one rune,
and that rune is white space. -/
def IsSpaceEnc (w : GoString) : Prop :=
  w ≠ [] ∧ IsSpace (DecodeRuneInString w).1 = true ∧ (DecodeRuneInString w).2 = w.length

/-- A run of white-space characters: nothing, or a run followed by one more
white-space character. -/
inductive SpaceRun : GoString → Prop
  | nil : SpaceRun []
  | snoc (r w : GoString) : SpaceRun r → IsSpaceEnc w → SpaceRun (r ++ w)

/-! ## Lemmas -/

theorem hasPrefix_iff (s p : GoString) : HasPrefix s p = true ↔ p <+: s := by
  induction s generalizing p with
  | nil => cases p <;> simp [HasPrefix]
  | cons a s ih =>
    cases p with
    | nil => simp [HasPrefix]
    | cons b p =>
      simp only [HasPrefix, Bool.and_eq_true, decide_eq_true_eq, ih, List.cons_prefix_cons]
      constructor <;> rintro ⟨h1, h2⟩ <;> exact ⟨h1.symm, h2⟩

theorem contains_iff (s sub : GoString) : Contains s sub = true ↔ sub <:+: s := by
  induction s with
  | nil =>
    simp only [Contains, hasPrefix_iff, List.prefix_nil, List.infix_nil]
  | cons a s ih =>
    simp only [Contains, Bool.or_eq_true, hasPrefix_iff, ih, List.infix_cons_iff]

theorem getVideoFileLoop_cond (f : File) :
    (Ext f.path = str ".mp4" ∨ Ext f.path = str ".mkv" ∨ Ext f.path = str ".avi" ∨
      Ext f.path = str ".avif" ∨ Ext f.path = str ".av1" ∨ Ext f.path = str ".mov" ∨
      Ext f.path = str ".flv" ∨ Ext f.path = str ".f4v" ∨ Ext f.path = str ".webm" ∨
      Ext f.path = str ".wmv" ∨ Ext f.path = str ".mpeg" ∨ Ext f.path = str ".mpg" ∨
      Ext f.path = str ".mlv" ∨ Ext f.path = str ".hevc" ∨ Ext f.path = str ".flac" ∨
      Ext f.path = str ".flic") ↔ Ext f.path ∈ mediaExtensions := by
  simp only [mediaExtensions, List.mem_cons, List.mem_singleton, List.not_mem_nil, or_false]

theorem getVideoFileLoop_none (fs : List File) :
    getVideoFileLoop fs = none ↔ ∀ f ∈ fs, Ext f.path ∉ mediaExtensions := by
  induction fs with
  | nil => simp [getVideoFileLoop]
  | cons f rest ih =>
    simp only [getVideoFileLoop, getVideoFileLoop_cond, List.mem_cons, forall_eq_or_imp]
    by_cases h : Ext f.path ∈ mediaExtensions
    · simp [h]
    · simp [h, ih]

theorem getVideoFileLoop_some (fs : List File) (f : File) :
    getVideoFileLoop fs = some f ↔
      ∃ pre post, fs = pre ++ f :: post ∧ (∀ g ∈ pre, Ext g.path ∉ mediaExtensions) ∧
        Ext f.path ∈ mediaExtensions := by
  induction fs with
  | nil => simp [getVideoFileLoop]
  | cons g rest ih =>
    simp only [getVideoFileLoop, getVideoFileLoop_cond]
    by_cases h : Ext g.path ∈ mediaExtensions
    · simp only [h, if_true, Option.some.injEq]
      constructor
      · rintro rfl
        exact ⟨[], rest, rfl, by simp, h⟩
      · rintro ⟨pre, post, hfs, hpre, _⟩
        cases pre with
        | nil => simp at hfs; exact hfs.1
        | cons a pre =>
          simp only [List.cons_append, List.cons.injEq] at hfs
          exact absurd h (hfs.1 ▸ hpre a (List.mem_cons_self _ _))
    · simp only [h, if_false, ih]
      constructor
      · rintro ⟨pre, post, hfs, hpre, hf⟩
        refine ⟨g :: pre, post, by simp [hfs], ?_, hf⟩
        intro x hx
        rcases List.mem_cons.1 hx with rfl | hx
        · exact h
        · exact hpre x hx
      · rintro ⟨pre, post, hfs, hpre, hf⟩
        cases pre with
        | nil =>
          simp only [List.nil_append, List.cons.injEq] at hfs
          exact absurd hf (hfs.1 ▸ h)
        | cons a pre =>
          simp only [List.cons_append, List.cons.injEq] at hfs
          exact ⟨pre, post, hfs.2, fun x hx => hpre x (List.mem_cons_of_mem _ hx), hf⟩

/-- A scan of the handler over torrents none of which has the token as its hex
info hash leaves the response writer untouched and prints one line per
torrent. -/
theorem handlerLoop_no_match (now : Torrent → Int) (ep : GoString) (ts : List Torrent)
    (w : ResponseWriter) (out : List GoString) (h : ∀ t ∈ ts, t.infoHash.HexString ≠ ep) :
    handlerLoop now ep ts w out =
      .returned w (out ++ ts.map (fun t => logLine t.infoHash.HexString ep)) := by
  induction ts generalizing out with
  | nil => simp [handlerLoop]
  | cons t rest ih =>
    have ht : t.infoHash.HexString ≠ ep := h t (List.mem_cons_self _ _)
    simp only [handlerLoop, ht, if_false]
    rw [ih _ (fun x hx => h x (List.mem_cons_of_mem _ hx))]
    simp

/-- A scan of the handler over torrents with pairwise different hex info
hashes, one of which matches the token and has a playable file, serves that
file once, with the header set to video/mp4 and the clock reading of that call
as modification time. -/
theorem handlerLoop_match (now : Torrent → Int) (ep : GoString) (ts : List Torrent)
    (w : ResponseWriter) (out : List GoString) (t : Torrent) (f : File) (ht : t ∈ ts)
    (hnd : (ts.map (fun x => x.infoHash.HexString)).Nodup)
    (hep : t.infoHash.HexString = ep) (hf : GetVideoFile t = some f) :
    handlerLoop now ep ts w out =
      .returned
        ⟨some (str "video/mp4"),
          w.served ++ [⟨f.displayPath, now t, some (str "video/mp4"), f⟩]⟩
        (out ++ ts.map (fun x => logLine x.infoHash.HexString ep)) := by
  induction ts generalizing out w with
  | nil => cases ht
  | cons x rest ih =>
    simp only [List.map_cons, List.nodup_cons, List.mem_map, not_exists, not_and] at hnd
    rcases List.mem_cons.1 ht with rfl | hmem
    · simp only [handlerLoop, hep, if_true, hf]
      rw [handlerLoop_no_match]
      · simp [hep]
      · intro y hy hyep
        exact hnd.1 y hy (hyep.trans hep.symm)
    · have hx : x.infoHash.HexString ≠ ep := fun hxe => hnd.1 t hmem (hep.trans hxe.symm)
      simp only [handlerLoop, hx, if_false]
      rw [ih _ _ hmem hnd.2]
      simp

theorem engineAdd_mem (c : Client) (t : Torrent) :
    (engineAdd c t).1 ∈ (engineAdd c t).2.torrentClient ∧
      (engineAdd c t).1.infoHash = t.infoHash := by
  unfold engineAdd
  cases hfind : c.torrentClient.find? (fun t0 => t0.infoHash = t.infoHash) with
  | none => simp
  | some t0 =>
    refine ⟨List.mem_of_find?_eq_some hfind, ?_⟩
    have := List.find?_some hfind
    simpa using this



/-! ## Decoding lemmas -/

theorem seqSize_bounds (a : Nat) : 2 ≤ seqSize a ∧ seqSize a ≤ 4 := by
  unfold seqSize; split_ifs <;> omega

theorem acceptLo_ge (a : Nat) : 0x80 ≤ acceptLo a := by
  unfold acceptLo; split_ifs <;> omega

theorem acceptHi_le (a : Nat) : acceptHi a ≤ 0xBF := by
  unfold acceptHi; split_ifs <;> omega

theorem decode_nil : DecodeRuneInString [] = (RuneError, 0) := by
  simp [DecodeRuneInString]

/-- A byte below RuneSelf decodes to itself. -/
theorem decode_ascii (a : Nat) (rest : GoString) (h : a < 0x80) :
    DecodeRuneInString (a :: rest) = (a, 1) := by
  simp [DecodeRuneInString, h]

/-- A well-formed two-byte sequence decodes with width 2. -/
theorem decode_two (a b : Nat) (rest : GoString) (h1 : 0xC2 ≤ a) (h2 : a < 0xE0)
    (h3 : 0x80 ≤ b) (h4 : b ≤ 0xBF) :
    DecodeRuneInString (a :: b :: rest) = (a % 32 * 64 + b % 64, 2) := by
  have e1 : seqSize a = 2 := by simp only [seqSize, h2, if_true]
  have e2 : acceptLo a = 0x80 := by unfold acceptLo; split_ifs <;> omega
  have e3 : acceptHi a = 0xBF := by unfold acceptHi; split_ifs <;> omega
  have c0 : ¬ rest.length + 1 + 1 < 1 := by omega
  have c1 : ¬ a < 0x80 := by omega
  have c2 : ¬ (a < 0xC2 ∨ 0xF4 < a) := by omega
  have c3 : ¬ rest.length + 1 + 1 < 2 := by omega
  have c4 : ¬ (b < 0x80 ∨ 0xBF < b) := by omega
  simp only [DecodeRuneInString, List.length_cons, List.getD_cons_zero, List.getD_cons_succ,
    e1, e2, e3, c0, c1, c2, c3, c4, if_false, le_refl, if_true]

/-- A well-formed three-byte sequence decodes with width 3. -/
theorem decode_three (a b c : Nat) (rest : GoString) (h1 : 0xE0 ≤ a) (h2 : a < 0xF0)
    (h3 : acceptLo a ≤ b) (h4 : b ≤ acceptHi a) (h5 : 0x80 ≤ c) (h6 : c ≤ 0xBF) :
    DecodeRuneInString (a :: b :: c :: rest) = (a % 16 * 4096 + b % 64 * 64 + c % 64, 3) := by
  have e1 : seqSize a = 3 := by unfold seqSize; split_ifs <;> omega
  have c0 : ¬ rest.length + 1 + 1 + 1 < 1 := by omega
  have c1 : ¬ a < 0x80 := by omega
  have c2 : ¬ (a < 0xC2 ∨ 0xF4 < a) := by omega
  have c3 : ¬ rest.length + 1 + 1 + 1 < 3 := by omega
  have c4 : ¬ (b < acceptLo a ∨ acceptHi a < b) := by omega
  have c5 : ¬ (3 ≤ 2) := by omega
  have c6 : ¬ (c < 0x80 ∨ 0xBF < c) := by omega
  simp only [DecodeRuneInString, List.length_cons, List.getD_cons_zero, List.getD_cons_succ,
    e1, c0, c1, c2, c3, c4, c5, c6, if_false, le_refl, if_true]

/-- A well-formed four-byte sequence decodes with width 4. -/
theorem decode_four (a b c d : Nat) (rest : GoString) (h1 : 0xF0 ≤ a) (h2 : a ≤ 0xF4)
    (h3 : acceptLo a ≤ b) (h4 : b ≤ acceptHi a) (h5 : 0x80 ≤ c) (h6 : c ≤ 0xBF)
    (h7 : 0x80 ≤ d) (h8 : d ≤ 0xBF) :
    DecodeRuneInString (a :: b :: c :: d :: rest) =
      (a % 8 * 262144 + b % 64 * 4096 + c % 64 * 64 + d % 64, 4) := by
  have e1 : seqSize a = 4 := by unfold seqSize; split_ifs <;> omega
  have c0 : ¬ rest.length + 1 + 1 + 1 + 1 < 1 := by omega
  have c1 : ¬ a < 0x80 := by omega
  have c2 : ¬ (a < 0xC2 ∨ 0xF4 < a) := by omega
  have c3 : ¬ rest.length + 1 + 1 + 1 + 1 < 4 := by omega
  have c4 : ¬ (b < acceptLo a ∨ acceptHi a < b) := by omega
  have c5 : ¬ (4 ≤ 2) := by omega
  have c6 : ¬ (c < 0x80 ∨ 0xBF < c) := by omega
  have c7 : ¬ (4 ≤ 3) := by omega
  have c8 : ¬ (d < 0x80 ∨ 0xBF < d) := by omega
  simp only [DecodeRuneInString, List.length_cons, List.getD_cons_zero, List.getD_cons_succ,
    e1, c0, c1, c2, c3, c4, c5, c6, c7, c8, if_false]

/-- Every decoding of a non-empty string has one of the five forms. -/
theorem decoded (s : GoString) (h : s ≠ []) :
    Decoded s (DecodeRuneInString s).1 (DecodeRuneInString s).2 := by
  rcases s with _ | ⟨a, rest⟩
  · exact absurd rfl h
  by_cases c1 : a < 0x80
  · rw [decode_ascii a rest c1]; exact Decoded.ascii a rest c1
  have hinv : ∀ r, DecodeRuneInString (a :: r) = (RuneError, 1) →
      Decoded (a :: r) (DecodeRuneInString (a :: r)).1 (DecodeRuneInString (a :: r)).2 := by
    intro r hr; rw [hr]; exact Decoded.invalid a r (by omega)
  by_cases c2 : a < 0xC2 ∨ 0xF4 < a
  · apply hinv
    simp [DecodeRuneInString, c1, c2]
  have hs := seqSize_bounds a
  have hlo := acceptLo_ge a
  have hhi := acceptHi_le a
  have hshort : ∀ r : GoString, r.length + 1 < seqSize a →
      DecodeRuneInString (a :: r) = (RuneError, 1) := by
    intro r hr
    have c0 : ¬ r.length + 1 < 1 := by omega
    simp only [DecodeRuneInString, List.length_cons, List.getD_cons_zero, c0, c1, c2, hr,
      if_false, if_true]
  rcases rest with _ | ⟨b, rest⟩
  · exact hinv _ (hshort [] (by simp only [List.length_nil]; omega))
  by_cases c3 : b < acceptLo a ∨ acceptHi a < b
  · apply hinv
    have c0 : ¬ rest.length + 1 + 1 < 1 := by omega
    simp only [DecodeRuneInString, List.length_cons, List.getD_cons_zero, List.getD_cons_succ,
      c0, c1, c2, c3, if_false, if_true]
    split_ifs <;> rfl
  by_cases c4 : a < 0xE0
  · rw [decode_two a b rest]
    · apply Decoded.two <;> omega
    all_goals omega
  have e3 : ¬ seqSize a ≤ 2 := by
    simp only [seqSize, c4, if_false]
    split_ifs <;> omega
  rcases rest with _ | ⟨c, rest⟩
  · exact hinv _ (hshort [b] (by simp only [List.length_singleton]; omega))
  by_cases c5 : c < 0x80 ∨ 0xBF < c
  · apply hinv
    have c0 : ¬ rest.length + 1 + 1 + 1 < 1 := by omega
    simp only [DecodeRuneInString, List.length_cons, List.getD_cons_zero, List.getD_cons_succ,
      c0, c1, c2, c3, c5, e3, if_false, if_true]
    split_ifs <;> rfl
  by_cases c6 : a < 0xF0
  · rw [decode_three a b c rest]
    · apply Decoded.three <;> omega
    all_goals omega
  have e4 : seqSize a = 4 := by simp only [seqSize, c4, c6, if_false]
  rcases rest with _ | ⟨d, rest⟩
  · exact hinv _ (hshort [b, c] (by simp only [List.length_cons, List.length_nil]; omega))
  by_cases c7 : d < 0x80 ∨ 0xBF < d
  · apply hinv
    have c0 : ¬ rest.length + 1 + 1 + 1 + 1 < 1 := by omega
    have c8 : ¬ rest.length + 1 + 1 + 1 + 1 < 4 := by omega
    have c9 : ¬ (4 ≤ 2) := by omega
    have c10 : ¬ (4 ≤ 3) := by omega
    simp only [DecodeRuneInString, List.length_cons, List.getD_cons_zero, List.getD_cons_succ,
      e4, c0, c1, c2, c3, c5, c7, c8, c9, c10, if_false, if_true]
  rw [decode_four a b c d rest]
  · apply Decoded.four <;> omega
  all_goals omega

/-- The forms of a decoding, as a case distinction on the bytes after the
first one. -/
theorem decode_cases (a : Nat) (rest : GoString) :
    (a < 0x80 ∧ DecodeRuneInString (a :: rest) = (a, 1)) ∨
    (0x80 ≤ a ∧ DecodeRuneInString (a :: rest) = (RuneError, 1)) ∨
    (∃ b r, rest = b :: r ∧ 0xC2 ≤ a ∧ a < 0xE0 ∧ 0x80 ≤ b ∧ b ≤ 0xBF ∧
      DecodeRuneInString (a :: rest) = (a % 32 * 64 + b % 64, 2)) ∨
    (∃ b c r, rest = b :: c :: r ∧ 0xE0 ≤ a ∧ a < 0xF0 ∧ acceptLo a ≤ b ∧ b ≤ acceptHi a ∧
      0x80 ≤ c ∧ c ≤ 0xBF ∧
      DecodeRuneInString (a :: rest) = (a % 16 * 4096 + b % 64 * 64 + c % 64, 3)) ∨
    (∃ b c d r, rest = b :: c :: d :: r ∧ 0xF0 ≤ a ∧ a ≤ 0xF4 ∧ acceptLo a ≤ b ∧
      b ≤ acceptHi a ∧ 0x80 ≤ c ∧ c ≤ 0xBF ∧ 0x80 ≤ d ∧ d ≤ 0xBF ∧
      DecodeRuneInString (a :: rest) =
        (a % 8 * 262144 + b % 64 * 4096 + c % 64 * 64 + d % 64, 4)) := by
  have h := decoded (a :: rest) (by simp)
  generalize hs : a :: rest = s at h
  rcases hd : DecodeRuneInString s with ⟨r, w⟩
  rw [hd] at h
  simp only at h
  cases h with
  | ascii a0 rest0 h1 =>
    injection hs with e1 e2; subst e1
    exact Or.inl ⟨h1, rfl⟩
  | invalid a0 rest0 h1 =>
    injection hs with e1 e2; subst e1
    exact Or.inr (Or.inl ⟨h1, rfl⟩)
  | two a0 b rest0 h1 h2 h3 h4 =>
    injection hs with e1 e2; subst e1
    exact Or.inr (Or.inr (Or.inl ⟨b, rest0, e2, h1, h2, h3, h4, rfl⟩))
  | three a0 b c rest0 h1 h2 h3 h4 h5 h6 =>
    injection hs with e1 e2; subst e1
    exact Or.inr (Or.inr (Or.inr (Or.inl ⟨b, c, rest0, e2, h1, h2, h3, h4, h5, h6, rfl⟩)))
  | four a0 b c d rest0 h1 h2 h3 h4 h5 h6 h7 h8 =>
    injection hs with e1 e2; subst e1
    exact Or.inr (Or.inr (Or.inr (Or.inr
      ⟨b, c, d, rest0, e2, h1, h2, h3, h4, h5, h6, h7, h8, rfl⟩)))

/-- The width of a decoded rune is between 1 and the length of the string. -/
theorem decode_width (s : GoString) (h : s ≠ []) :
    1 ≤ (DecodeRuneInString s).2 ∧ (DecodeRuneInString s).2 ≤ s.length := by
  rcases s with _ | ⟨a, rest⟩
  · exact absurd rfl h
  rcases decode_cases a rest with ⟨_, e⟩ | ⟨_, e⟩ | ⟨b, r, rfl, _, _, _, _, e⟩ |
    ⟨b, c, r, rfl, _, _, _, _, _, _, e⟩ | ⟨b, c, d, r, rfl, _, _, _, _, _, _, _, _, e⟩ <;>
  rw [e] <;> simp

theorem isSpace_runeError : IsSpace RuneError = false := by decide

/-- A rune decoded without error was decoded from the bytes it spans alone. -/
theorem decode_append_of_valid (l x : GoString) (hne : l ≠ [])
    (h : DecodeRuneInString l ≠ (RuneError, 1)) :
    DecodeRuneInString (l ++ x) = DecodeRuneInString l := by
  rcases l with _ | ⟨a, rest⟩
  · exact absurd rfl hne
  rcases decode_cases a rest with ⟨h1, e⟩ | ⟨_, e⟩ | ⟨b, r, rfl, h1, h2, h3, h4, e⟩ |
    ⟨b, c, r, rfl, h1, h2, h3, h4, h5, h6, e⟩ |
    ⟨b, c, d, r, rfl, h1, h2, h3, h4, h5, h6, h7, h8, e⟩
  · rw [e, List.cons_append, decode_ascii _ _ h1]
  · exact absurd e h
  · rw [e]; exact decode_two a b (r ++ x) h1 h2 h3 h4
  · rw [e]; exact decode_three a b c (r ++ x) h1 h2 h3 h4 h5 h6
  · rw [e]; exact decode_four a b c d (r ++ x) h1 h2 h3 h4 h5 h6 h7 h8

/-- A white-space rune is not a decoding error. -/
theorem ne_error_of_space (l : GoString) (h : IsSpace (DecodeRuneInString l).1 = true) :
    l ≠ [] ∧ DecodeRuneInString l ≠ (RuneError, 1) := by
  constructor
  · rintro rfl
    rw [decode_nil, isSpace_runeError] at h; cases h
  · intro e
    rw [e, isSpace_runeError] at h; cases h

/-- A rune that is white space was decoded from the bytes it spans alone. -/
theorem decode_append_of_space (l x : GoString) (h : IsSpace (DecodeRuneInString l).1 = true) :
    DecodeRuneInString (l ++ x) = DecodeRuneInString l :=
  decode_append_of_valid l x (ne_error_of_space l h).1 (ne_error_of_space l h).2

/-- What follows a string does not matter to its first rune when it starts
with a byte that is no continuation byte. -/
theorem decode_append_start (x y : GoString) (hx : x ≠ [])
    (hy : ∀ b ∈ y.head?, b < 0x80 ∨ 0xBF < b) :
    DecodeRuneInString (x ++ y) = DecodeRuneInString x := by
  rcases y with _ | ⟨y0, y⟩
  · simp
  simp only [List.head?_cons, Option.mem_def, Option.some.injEq, forall_eq'] at hy
  rcases x with _ | ⟨a, rest⟩
  · exact absurd rfl hx
  rcases decode_cases a rest with ⟨h1, e⟩ | ⟨h0, e⟩ | ⟨b, r, rfl, h1, h2, h3, h4, e⟩ |
    ⟨b, c, r, rfl, h1, h2, h3, h4, h5, h6, e⟩ |
    ⟨b, c, d, r, rfl, h1, h2, h3, h4, h5, h6, h7, h8, e⟩
  · rw [e, List.cons_append, decode_ascii _ _ h1]
  · rw [e, List.cons_append]
    have hlo := acceptLo_ge a
    have hhi := acceptHi_le a
    rcases decode_cases a (rest ++ y0 :: y) with ⟨h1, _⟩ | ⟨_, e2⟩ |
      ⟨b, r, hr, h1, h2, h3, h4, _⟩ | ⟨b, c, r, hr, h1, h2, h3, h4, h5, h6, _⟩ |
      ⟨b, c, d, r, hr, h1, h2, h3, h4, h5, h6, h7, h8, _⟩
    · omega
    · exact e2
    · exfalso
      rcases rest with _ | ⟨b1, r1⟩
      · simp only [List.nil_append, List.cons.injEq] at hr; omega
      · simp only [List.cons_append, List.cons.injEq] at hr
        obtain ⟨rfl, -⟩ := hr
        rw [decode_two a b1 r1 h1 h2 h3 h4] at e
        simp at e
    · exfalso
      rcases rest with _ | ⟨b1, _ | ⟨c1, r1⟩⟩
      · simp only [List.nil_append, List.cons.injEq] at hr; omega
      · simp only [List.cons_append, List.nil_append, List.cons.injEq] at hr; omega
      · simp only [List.cons_append, List.cons.injEq] at hr
        obtain ⟨rfl, rfl, -⟩ := hr
        rw [decode_three a b1 c1 r1 h1 h2 h3 h4 h5 h6] at e
        simp at e
    · exfalso
      rcases rest with _ | ⟨b1, _ | ⟨c1, _ | ⟨d1, r1⟩⟩⟩
      · simp only [List.nil_append, List.cons.injEq] at hr; omega
      · simp only [List.cons_append, List.nil_append, List.cons.injEq] at hr; omega
      · simp only [List.cons_append, List.nil_append, List.cons.injEq] at hr; omega
      · simp only [List.cons_append, List.cons.injEq] at hr
        obtain ⟨rfl, rfl, rfl, -⟩ := hr
        rw [decode_four a b1 c1 d1 r1 h1 h2 h3 h4 h5 h6 h7 h8] at e
        simp at e
  · rw [e]; exact decode_two a b (r ++ y0 :: y) h1 h2 h3 h4
  · rw [e]; exact decode_three a b c (r ++ y0 :: y) h1 h2 h3 h4 h5 h6
  · rw [e]; exact decode_four a b c d (r ++ y0 :: y) h1 h2 h3 h4 h5 h6 h7 h8

/-! ## The loops: enough fuel -/

theorem runesLoop_fuel (n m : Nat) (s : GoString) (hn : s.length ≤ n) (hm : s.length ≤ m) :
    runesLoop n s = runesLoop m s := by
  induction n generalizing m s with
  | zero =>
    have : s = [] := List.length_eq_zero.1 (by omega)
    subst this
    cases m <;> rfl
  | succ n ih =>
    rcases s with _ | ⟨a, t⟩
    · cases m <;> rfl
    · cases m with
      | zero => simp at hm
      | succ m =>
        have hw := decode_width (a :: t) (by simp)
        simp only [runesLoop]
        congr 1
        apply ih <;> simp only [List.length_drop, List.length_cons] at * <;> omega

theorem runes_cons (a : Nat) (t : GoString) :
    runes (a :: t) = (DecodeRuneInString (a :: t)).1 ::
      runes ((a :: t).drop (DecodeRuneInString (a :: t)).2) := by
  have hw := decode_width (a :: t) (by simp)
  simp only [runes, List.length_cons, runesLoop]
  congr 1
  apply runesLoop_fuel <;> simp only [List.length_drop, List.length_cons] at * <;> omega

theorem trimLeftLoop_fuel (n m : Nat) (s : GoString) (hn : s.length ≤ n) (hm : s.length ≤ m) :
    trimLeftLoop n s = trimLeftLoop m s := by
  induction n generalizing m s with
  | zero =>
    have : s = [] := List.length_eq_zero.1 (by omega)
    subst this
    cases m <;> rfl
  | succ n ih =>
    rcases s with _ | ⟨a, t⟩
    · cases m <;> rfl
    · cases m with
      | zero => simp at hm
      | succ m =>
        have hw := decode_width (a :: t) (by simp)
        simp only [trimLeftLoop]
        split_ifs
        · apply ih <;> simp only [List.length_drop, List.length_cons] at * <;> omega
        · rfl

theorem trimLeftSpace_cons (a : Nat) (t : GoString) :
    TrimLeftSpace (a :: t) =
      if IsSpace (DecodeRuneInString (a :: t)).1 then
        TrimLeftSpace ((a :: t).drop (DecodeRuneInString (a :: t)).2)
      else a :: t := by
  have hw := decode_width (a :: t) (by simp)
  simp only [TrimLeftSpace, List.length_cons, trimLeftLoop]
  split_ifs
  · apply trimLeftLoop_fuel <;> simp only [List.length_drop, List.length_cons] at * <;> omega
  · rfl

theorem trimLeftSpace_nil : TrimLeftSpace [] = [] := rfl

/-! ## Decoding from the end -/

theorem lastRuneSpan_ge (bs : List Nat) (steps k : Nat) : k ≤ lastRuneSpan bs steps k := by
  induction bs generalizing steps k with
  | nil => simp [lastRuneSpan]
  | cons b bs ih =>
    cases steps with
    | zero => simp [lastRuneSpan]
    | succ steps =>
      simp only [lastRuneSpan]
      split_ifs
      · omega
      · have := ih steps (k + 1); omega

theorem reverse_eq_cons {t : GoString} {b : Nat} {bs : List Nat} (h : t.reverse = b :: bs) :
    t = bs.reverse ++ [b] := by
  have := congrArg List.reverse h
  simpa using this

theorem drop_length_sub_one (bs : List Nat) (b : Nat) :
    (bs ++ [b]).drop ((bs ++ [b]).length - 1) = [b] := by
  simp

/-- The width of the last rune, and the forward decoding at the place where it
starts. -/
theorem decodeLast_width (t : GoString) (h : t ≠ []) :
    1 ≤ (DecodeLastRuneInString t).2 ∧ (DecodeLastRuneInString t).2 ≤ t.length ∧
    (DecodeRuneInString (t.drop (t.length - (DecodeLastRuneInString t).2))).2 =
      (DecodeLastRuneInString t).2 := by
  rcases hrev : t.reverse with _ | ⟨b, bs⟩
  · simp at hrev; exact absurd hrev h
  have ht := reverse_eq_cons hrev
  have hlast : t.drop (t.length - 1) = [b] := by rw [ht]; exact drop_length_sub_one _ _
  have hlen : 1 ≤ t.length := by rw [ht]; simp
  simp only [DecodeLastRuneInString, hrev]
  by_cases hb : b < RuneSelf
  · simp only [hb, if_true, hlast]
    refine ⟨le_refl _, hlen, ?_⟩
    rw [decode_ascii b [] hb]
  · simp only [hb, if_false]
    have hk := lastRuneSpan_ge bs 3 1
    have hne : t.drop (t.length - lastRuneSpan bs 3 1) ≠ [] := by
      intro h0
      have := congrArg List.length h0
      simp only [List.length_drop, List.length_nil] at this
      omega
    have hw := decode_width _ hne
    simp only [List.length_drop] at hw
    split_ifs with hd
    · refine ⟨hw.1, by omega, ?_⟩
      rw [hd]
      exact hd
    · simp only [hlast]
      refine ⟨le_refl _, hlen, ?_⟩
      have := decode_width [b] (by simp)
      simp only [List.length_singleton] at this
      omega

/-- After any string, one well-formed character is the last rune. -/
theorem decodeLast_append_valid (x w : GoString) (hw : ValidEnc w) :
    DecodeLastRuneInString (x ++ w) = DecodeRuneInString w := by
  obtain ⟨hne, hsp, hlen⟩ := hw
  rcases w with _ | ⟨a, rest⟩
  · exact absurd rfl hne
  rcases decode_cases a rest with ⟨h1, e⟩ | ⟨_, e⟩ | ⟨b, r, rfl, h1, h2, h3, h4, e⟩ |
    ⟨b, c, r, rfl, h1, h2, h3, h4, h5, h6, e⟩ |
    ⟨b, c, d, r, rfl, h1, h2, h3, h4, h5, h6, h7, h8, e⟩
  · rw [e] at hlen
    simp only [List.length_cons] at hlen
    have : rest = [] := List.length_eq_zero.1 (by omega)
    subst this
    rw [e]
    simp [DecodeLastRuneInString, RuneSelf, h1]
  · exact absurd e hsp
  · rw [e] at hlen
    simp only [List.length_cons] at hlen
    have : r = [] := List.length_eq_zero.1 (by omega)
    subst this
    have hb : ¬ b < RuneSelf := by unfold RuneSelf; omega
    have ha : RuneStart a = true := by simp [RuneStart]; omega
    have hd : (x ++ [a, b]).drop ((x ++ [a, b]).length - 2) = [a, b] := by simp
    have hk : lastRuneSpan (a :: x.reverse) 3 1 = 2 := by simp [lastRuneSpan, ha]
    simp only [DecodeLastRuneInString, List.reverse_append, List.reverse_cons, List.reverse_nil,
      List.nil_append, List.cons_append, hb, if_false, hk, hd, e, if_true]
  · rw [e] at hlen
    simp only [List.length_cons] at hlen
    have : r = [] := List.length_eq_zero.1 (by omega)
    subst this
    have hlo := acceptLo_ge a
    have hhi := acceptHi_le a
    have hc : ¬ c < RuneSelf := by unfold RuneSelf; omega
    have hb : RuneStart b = false := by simp [RuneStart]; omega
    have ha : RuneStart a = true := by simp [RuneStart]; omega
    have hd : (x ++ [a, b, c]).drop ((x ++ [a, b, c]).length - 3) = [a, b, c] := by simp
    have hk : lastRuneSpan (b :: a :: x.reverse) 3 1 = 3 := by simp [lastRuneSpan, ha, hb]
    simp only [DecodeLastRuneInString, List.reverse_append, List.reverse_cons, List.reverse_nil,
      List.nil_append, List.cons_append, hc, if_false, hk, hd, e, if_true]
  · rw [e] at hlen
    simp only [List.length_cons] at hlen
    have : r = [] := List.length_eq_zero.1 (by omega)
    subst this
    have hlo := acceptLo_ge a
    have hhi := acceptHi_le a
    have hdd : ¬ d < RuneSelf := by unfold RuneSelf; omega
    have hc : RuneStart c = false := by simp [RuneStart]; omega
    have hb : RuneStart b = false := by simp [RuneStart]; omega
    have ha : RuneStart a = true := by simp [RuneStart]; omega
    have hd : (x ++ [a, b, c, d]).drop ((x ++ [a, b, c, d]).length - 4) = [a, b, c, d] := by
      simp
    have hk : lastRuneSpan (c :: b :: a :: x.reverse) 3 1 = 4 := by
      simp [lastRuneSpan, ha, hb, hc]
    simp only [DecodeLastRuneInString, List.reverse_append, List.reverse_cons, List.reverse_nil,
      List.nil_append, List.cons_append, hdd, if_false, hk, hd, e, if_true]

theorem validEnc_of_space (w : GoString) (hw : IsSpaceEnc w) : ValidEnc w :=
  ⟨hw.1, (ne_error_of_space w hw.2.1).2, hw.2.2⟩

/-- After any string, one white-space character is the last rune. -/
theorem decodeLast_append_space (x w : GoString) (hw : IsSpaceEnc w) :
    DecodeLastRuneInString (x ++ w) = DecodeRuneInString w :=
  decodeLast_append_valid x w (validEnc_of_space w hw)

/-- A last rune that is white space is one white-space character at the end of
the string. -/
theorem decodeLast_space (t : GoString) (h : IsSpace (DecodeLastRuneInString t).1 = true) :
    ∃ x w, t = x ++ w ∧ IsSpaceEnc w ∧ DecodeLastRuneInString t = DecodeRuneInString w := by
  rcases hrev : t.reverse with _ | ⟨b, bs⟩
  · simp only [DecodeLastRuneInString, hrev, isSpace_runeError] at h; cases h
  have ht := reverse_eq_cons hrev
  simp only [DecodeLastRuneInString, hrev] at h ⊢
  by_cases hb : b < RuneSelf
  · simp only [hb, if_true] at h ⊢
    refine ⟨bs.reverse, [b], ht, ⟨by simp, ?_, ?_⟩, ?_⟩ <;> rw [decode_ascii b [] hb]
    · exact h
    · rfl
  · simp only [hb, if_false] at h ⊢
    have hk := lastRuneSpan_ge bs 3 1
    split_ifs at h ⊢ with hd
    · have hne : t.drop (t.length - lastRuneSpan bs 3 1) ≠ [] := by
        intro h0
        rw [h0, decode_nil, isSpace_runeError] at h
        cases h
      have hw := decode_width _ hne
      simp only [List.length_drop] at hw
      refine ⟨t.take (t.length - lastRuneSpan bs 3 1), t.drop (t.length - lastRuneSpan bs 3 1),
        (List.take_append_drop _ _).symm, ⟨hne, h, ?_⟩, rfl⟩
      simp only [List.length_drop]
      omega
    · rw [isSpace_runeError] at h; cases h

/-! ## Runs of white space -/

theorem spaceRun_cons (w r : GoString) (hw : IsSpaceEnc w) (hr : SpaceRun r) :
    SpaceRun (w ++ r) := by
  induction hr with
  | nil =>
    have := SpaceRun.snoc [] w SpaceRun.nil hw
    simpa using this
  | snoc r w2 _ hw2 ih =>
    rw [← List.append_assoc]
    exact SpaceRun.snoc (w ++ r) w2 ih hw2

theorem spaceRun_append (l r : GoString) (hl : SpaceRun l) (hr : SpaceRun r) :
    SpaceRun (l ++ r) := by
  induction hr with
  | nil => simpa using hl
  | snoc r w2 _ hw2 ih =>
    rw [← List.append_assoc]
    exact SpaceRun.snoc (l ++ r) w2 ih hw2

/-- The first byte of a white-space character is no continuation byte. -/
theorem isSpaceEnc_head (w : GoString) (hw : IsSpaceEnc w) :
    ∀ b ∈ w.head?, b < 0x80 ∨ 0xBF < b := by
  obtain ⟨hne, hsp, _⟩ := hw
  rcases w with _ | ⟨a, rest⟩
  · exact absurd rfl hne
  simp only [List.head?_cons, Option.mem_def, Option.some.injEq, forall_eq']
  rcases decode_cases a rest with ⟨h1, e⟩ | ⟨_, e⟩ | ⟨b, r, rfl, h1, h2, h3, h4, e⟩ |
    ⟨b, c, r, rfl, h1, h2, h3, h4, h5, h6, e⟩ |
    ⟨b, c, d, r, rfl, h1, h2, h3, h4, h5, h6, h7, h8, e⟩
  · omega
  · rw [e, isSpace_runeError] at hsp; cases hsp
  · omega
  · omega
  · omega

theorem spaceRun_head (r : GoString) (hr : SpaceRun r) :
    ∀ b ∈ r.head?, b < 0x80 ∨ 0xBF < b := by
  induction hr with
  | nil => simp
  | snoc r w _ hw ih =>
    rcases r with _ | ⟨a, r⟩
    · simpa using isSpaceEnc_head w hw
    · simpa using ih

/-- The bytes a rune was decoded from without error are one well-formed
character. -/
theorem validEnc_take (s : GoString) (hne : s ≠ [])
    (h : DecodeRuneInString s ≠ (RuneError, 1)) :
    ValidEnc (s.take (DecodeRuneInString s).2) ∧
      DecodeRuneInString (s.take (DecodeRuneInString s).2) = DecodeRuneInString s := by
  rcases s with _ | ⟨a, rest⟩
  · exact absurd rfl hne
  rcases decode_cases a rest with ⟨h1, e⟩ | ⟨_, e⟩ | ⟨b, r, rfl, h1, h2, h3, h4, e⟩ |
    ⟨b, c, r, rfl, h1, h2, h3, h4, h5, h6, e⟩ |
    ⟨b, c, d, r, rfl, h1, h2, h3, h4, h5, h6, h7, h8, e⟩
  · rw [e]
    have e2 := decode_ascii a [] h1
    simp only [List.take_succ_cons, List.take_zero]
    refine ⟨⟨by simp, ?_, by rw [e2]; rfl⟩, e2⟩
    rw [e2]
    simp only [RuneError, ne_eq, Prod.mk.injEq, and_true]
    omega
  · exact absurd e h
  · rw [e]
    have e2 := decode_two a b [] h1 h2 h3 h4
    simp only [List.take_succ_cons, List.take_zero]
    exact ⟨⟨by simp, by rw [e2]; simp, by rw [e2]; rfl⟩, e2⟩
  · rw [e]
    have e2 := decode_three a b c [] h1 h2 h3 h4 h5 h6
    simp only [List.take_succ_cons, List.take_zero]
    exact ⟨⟨by simp, by rw [e2]; simp, by rw [e2]; rfl⟩, e2⟩
  · rw [e]
    have e2 := decode_four a b c d [] h1 h2 h3 h4 h5 h6 h7 h8
    simp only [List.take_succ_cons, List.take_zero]
    exact ⟨⟨by simp, by rw [e2]; simp, by rw [e2]; rfl⟩, e2⟩

/-- The bytes a white-space rune was decoded from are one white-space
character. -/
theorem isSpaceEnc_take (s : GoString) (h : IsSpace (DecodeRuneInString s).1 = true) :
    IsSpaceEnc (s.take (DecodeRuneInString s).2) ∧
      DecodeRuneInString (s.take (DecodeRuneInString s).2) = DecodeRuneInString s := by
  obtain ⟨hv, e⟩ := validEnc_take s (ne_error_of_space s h).1 (ne_error_of_space s h).2
  exact ⟨⟨hv.1, by rw [e]; exact h, hv.2.2⟩, e⟩

/-- A string of white-space characters only is a run of white space. -/
theorem spaceRun_of_whiteSpaceOnly (s : GoString) (h : whiteSpaceOnly s = true) :
    SpaceRun s := by
  suffices H : ∀ n (s : GoString), s.length = n → whiteSpaceOnly s = true → SpaceRun s from
    H _ s rfl h
  intro n
  induction n using Nat.strong_induction_on with
  | _ n ih =>
    intro s hn h
    rcases s with _ | ⟨a, t⟩
    · exact SpaceRun.nil
    · have hw := decode_width (a :: t) (by simp)
      unfold whiteSpaceOnly at h
      rw [runes_cons, List.all_cons, Bool.and_eq_true] at h
      have hsplit := (List.take_append_drop (DecodeRuneInString (a :: t)).2 (a :: t)).symm
      rw [hsplit]
      refine spaceRun_cons _ _ (isSpaceEnc_take _ h.1).1 (ih _ ?_ _ rfl h.2)
      simp only [List.length_drop, List.length_cons] at hn ⊢
      omega

/-! ## Trimming on the left -/

theorem trimLeftSpace_spaceEnc (w x : GoString) (hw : IsSpaceEnc w) :
    TrimLeftSpace (w ++ x) = TrimLeftSpace x := by
  obtain ⟨hne, hsp, hlen⟩ := hw
  rcases w with _ | ⟨a, rest⟩
  · exact absurd rfl hne
  have e := decode_append_of_space (a :: rest) x hsp
  rw [List.cons_append] at e ⊢
  rw [trimLeftSpace_cons, e, if_pos hsp, hlen, ← List.cons_append, List.drop_left]

theorem trimLeftSpace_spaceRun (l x : GoString) (hl : SpaceRun l) :
    TrimLeftSpace (l ++ x) = TrimLeftSpace x := by
  induction hl generalizing x with
  | nil => rfl
  | snoc r w _ hw ih =>
    rw [List.append_assoc, ih, trimLeftSpace_spaceEnc w x hw]

theorem trimLeftSpace_id (q : GoString)
    (h : q = [] ∨ IsSpace (DecodeRuneInString q).1 = false) : TrimLeftSpace q = q := by
  rcases q with _ | ⟨a, t⟩
  · rfl
  · rcases h with h | h
    · cases h
    · rw [trimLeftSpace_cons, h]; rfl

/-- What TrimLeftSpace removes is a run of white space, and what it leaves is
empty or starts with a rune that is not white space. -/
theorem trimLeftSpace_decomp (s : GoString) :
    ∃ l, SpaceRun l ∧ s = l ++ TrimLeftSpace s ∧
      (TrimLeftSpace s = [] ∨ IsSpace (DecodeRuneInString (TrimLeftSpace s)).1 = false) := by
  suffices H : ∀ n (s : GoString), s.length = n → ∃ l, SpaceRun l ∧ s = l ++ TrimLeftSpace s ∧
      (TrimLeftSpace s = [] ∨ IsSpace (DecodeRuneInString (TrimLeftSpace s)).1 = false) from
    H _ s rfl
  intro n
  induction n using Nat.strong_induction_on with
  | _ n ih =>
    intro s hn
    rcases s with _ | ⟨a, t⟩
    · exact ⟨[], SpaceRun.nil, rfl, Or.inl rfl⟩
    · have hw := decode_width (a :: t) (by simp)
      by_cases hsp : IsSpace (DecodeRuneInString (a :: t)).1 = true
      · have hlt : ((a :: t).drop (DecodeRuneInString (a :: t)).2).length < n := by
          simp only [List.length_drop, List.length_cons] at hn ⊢
          omega
        obtain ⟨l, hl, hs, hq⟩ := ih _ hlt _ rfl
        have he : TrimLeftSpace (a :: t) =
            TrimLeftSpace ((a :: t).drop (DecodeRuneInString (a :: t)).2) := by
          rw [trimLeftSpace_cons, if_pos hsp]
        rw [he]
        refine ⟨(a :: t).take (DecodeRuneInString (a :: t)).2 ++ l,
          spaceRun_cons _ _ (isSpaceEnc_take _ hsp).1 hl, ?_, hq⟩
        rw [List.append_assoc, ← hs, List.take_append_drop]
      · have hsp2 : IsSpace (DecodeRuneInString (a :: t)).1 = false := by
          simpa using hsp
        rw [trimLeftSpace_id _ (Or.inr hsp2)]
        exact ⟨[], SpaceRun.nil, rfl, Or.inr hsp2⟩

/-! ## Trimming on the right -/

theorem lastIndexLoop_fuel (n m : Nat) (p : GoString) (hn : p.length ≤ n) (hm : p.length ≤ m) :
    lastIndexLoop n p = lastIndexLoop m p := by
  induction n generalizing m p with
  | zero =>
    have : p = [] := List.length_eq_zero.1 (by omega)
    subst this
    cases m <;> rfl
  | succ n ih =>
    rcases p with _ | ⟨a, t⟩
    · cases m <;> rfl
    · cases m with
      | zero => simp at hm
      | succ m =>
        have hw := decodeLast_width (a :: t) (by simp)
        simp only [lastIndexLoop]
        split_ifs
        · apply ih <;> simp only [List.length_take, List.length_cons] at * <;> omega
        · rfl

theorem lastIndexLoop_unfold (p : GoString) (hp : p ≠ []) :
    lastIndexLoop p.length p =
      if IsSpace (DecodeLastRuneInString p).1 then
        lastIndexLoop (p.take (p.length - (DecodeLastRuneInString p).2)).length
          (p.take (p.length - (DecodeLastRuneInString p).2))
      else some (p.length - (DecodeLastRuneInString p).2) := by
  rcases p with _ | ⟨a, t⟩
  · exact absurd rfl hp
  have hw := decodeLast_width (a :: t) (by simp)
  simp only [List.length_cons, lastIndexLoop]
  split_ifs
  · apply lastIndexLoop_fuel <;> simp only [List.length_take, List.length_cons] at * <;> omega
  · rfl

theorem lastIndexLoop_spaceRun (p r : GoString) (hr : SpaceRun r) :
    lastIndexLoop (p ++ r).length (p ++ r) = lastIndexLoop p.length p := by
  induction hr with
  | nil => simp
  | snoc r w _ hw ih =>
    have hne : p ++ (r ++ w) ≠ [] := by
      have := hw.1
      simp [this]
    rw [lastIndexLoop_unfold _ hne]
    have e : DecodeLastRuneInString (p ++ (r ++ w)) = DecodeRuneInString w := by
      rw [← List.append_assoc]; exact decodeLast_append_space _ _ hw
    rw [e, if_pos hw.2.1, hw.2.2]
    have ht : (p ++ (r ++ w)).take ((p ++ (r ++ w)).length - w.length) = p ++ r := by
      rw [← List.append_assoc]
      have hl : ((p ++ r) ++ w).length - w.length = (p ++ r).length := by
        rw [List.length_append (p ++ r) w]; omega
      rw [hl, List.take_left]
    rw [ht, ih]

/-- What TrimRightSpace removes: after a string that is empty or ends with a
rune that is not white space, a run of white space is cut off, and nothing
else. -/
theorem trimRightSpace_spaceRun (p r : GoString) (hr : SpaceRun r)
    (hp : p = [] ∨ IsSpace (DecodeLastRuneInString p).1 = false) :
    TrimRightSpace (p ++ r) = p := by
  unfold TrimRightSpace
  rw [lastIndexLoop_spaceRun p r hr]
  by_cases hne : p = []
  · subst hne
    simp [lastIndexLoop]
  · rcases hp with hp | hp
    · exact absurd hp hne
    · rw [lastIndexLoop_unfold p hne, hp]
      simp only [Bool.false_eq_true, if_false]
      obtain ⟨h1, h2, h3⟩ := decodeLast_width p hne
      have hd : (p ++ r).drop (p.length - (DecodeLastRuneInString p).2) =
          p.drop (p.length - (DecodeLastRuneInString p).2) ++ r := by
        rw [List.drop_append_of_le_length (by omega)]
      have hdne : p.drop (p.length - (DecodeLastRuneInString p).2) ≠ [] := by
        intro h0
        have := congrArg List.length h0
        simp only [List.length_drop, List.length_nil] at this
        omega
      rw [hd]
      rcases hq : p.drop (p.length - (DecodeLastRuneInString p).2) with _ | ⟨b, q⟩
      · exact absurd hq hdne
      · have hG := decode_append_start _ r hdne (spaceRun_head r hr)
        rw [hq] at hG h3
        simp only [List.cons_append]
        have htake : ∀ k, k = (DecodeLastRuneInString p).2 →
            (p ++ r).take (p.length - (DecodeLastRuneInString p).2 + k) = p := by
          intro k hk
          have : p.length - (DecodeLastRuneInString p).2 + k = p.length := by omega
          rw [this]
          simp
        split_ifs with hb
        · apply htake
          rw [← List.cons_append, hG, h3]
        · apply htake
          have hb2 : b < 0x80 := by unfold RuneSelf at hb; omega
          rw [decode_ascii b q hb2] at h3
          exact h3

/-- What TrimRightSpace leaves is empty or ends with a rune that is not white
space, and what it removes is a run of white space. -/
theorem trimRightSpace_decomp (s : GoString) :
    ∃ r, SpaceRun r ∧ s = TrimRightSpace s ++ r ∧
      (TrimRightSpace s = [] ∨
        IsSpace (DecodeLastRuneInString (TrimRightSpace s)).1 = false) := by
  suffices H : ∀ n (s : GoString), s.length = n → ∃ p r, s = p ++ r ∧ SpaceRun r ∧
      (p = [] ∨ IsSpace (DecodeLastRuneInString p).1 = false) by
    obtain ⟨p, r, hs, hr, hp⟩ := H _ s rfl
    have := trimRightSpace_spaceRun p r hr hp
    rw [← hs] at this
    rw [this]
    exact ⟨r, hr, hs, hp⟩
  intro n
  induction n using Nat.strong_induction_on with
  | _ n ih =>
    intro s hn
    by_cases hsp : IsSpace (DecodeLastRuneInString s).1 = true
    · obtain ⟨x, w, hs, hw, _⟩ := decodeLast_space s hsp
      have hlt : x.length < n := by
        have := List.length_pos.2 hw.1
        rw [← hn, hs, List.length_append]
        omega
      obtain ⟨p, r, hx, hr, hp⟩ := ih _ hlt x rfl
      refine ⟨p, r ++ w, ?_, SpaceRun.snoc r w hr hw, hp⟩
      rw [hs, hx, List.append_assoc]
    · exact ⟨s, [], by simp, SpaceRun.nil, Or.inr (by simpa using hsp)⟩

/-! ## Strings without white space -/

/-- A white-space character anywhere in a string shows among its runes: the
decoding from the front cannot step over its first byte. -/
theorem noWhiteSpace_append_space (x w y : GoString) (hw : IsSpaceEnc w) :
    noWhiteSpace (x ++ w ++ y) = false := by
  suffices H : ∀ n (x : GoString), x.length = n → noWhiteSpace (x ++ w ++ y) = false from
    H _ x rfl
  intro n
  induction n using Nat.strong_induction_on with
  | _ n ih =>
    intro x hn
    obtain ⟨hne, hsp, hlen⟩ := hw
    rcases x with _ | ⟨a, x1⟩
    · rcases w with _ | ⟨b, w1⟩
      · exact absurd rfl hne
      · have e := decode_append_of_space (b :: w1) y hsp
        simp only [List.nil_append, List.cons_append] at e ⊢
        unfold noWhiteSpace
        rw [runes_cons, List.all_cons, e, hsp]
        simp
    · have hhead : ∀ b ∈ (w ++ y).head?, b < 0x80 ∨ 0xBF < b := by
        rcases w with _ | ⟨b, w1⟩
        · exact absurd rfl hne
        · simpa using isSpaceEnc_head (b :: w1) ⟨hne, hsp, hlen⟩
      have e := decode_append_start (a :: x1) (w ++ y) (by simp) hhead
      have hwd := decode_width (a :: x1) (by simp)
      rw [List.append_assoc]
      rw [List.cons_append] at e ⊢
      unfold noWhiteSpace
      rw [runes_cons, List.all_cons, e, ← List.cons_append,
        List.drop_append_of_le_length hwd.2]
      have hlt : ((a :: x1).drop (DecodeRuneInString (a :: x1)).2).length < n := by
        simp only [List.length_drop, List.length_cons] at hn ⊢
        omega
      have := ih _ hlt _ rfl
      unfold noWhiteSpace at this
      rw [List.append_assoc] at this
      rw [this]
      simp

/-- The first rune of a non-empty string without white space is not white
space. -/
theorem noWhiteSpace_decode (t : GoString) (h : noWhiteSpace t = true) (hne : t ≠ []) :
    IsSpace (DecodeRuneInString t).1 = false := by
  rcases t with _ | ⟨a, t1⟩
  · exact absurd rfl hne
  · unfold noWhiteSpace at h
    rw [runes_cons, List.all_cons, Bool.and_eq_true] at h
    simpa using h.1

/-- The last rune of a string without white space is not white space. -/
theorem noWhiteSpace_decodeLast (t : GoString) (h : noWhiteSpace t = true) :
    IsSpace (DecodeLastRuneInString t).1 = false := by
  by_contra hc
  have hsp : IsSpace (DecodeLastRuneInString t).1 = true := by simpa using hc
  obtain ⟨x, w, ht, hw, _⟩ := decodeLast_space t hsp
  have := noWhiteSpace_append_space x w [] hw
  rw [List.append_nil, ← ht, h] at this
  cases this

/-- A string without white space holds no white-space byte below RuneSelf. -/
theorem noWhiteSpace_not_mem (t : GoString) (h : noWhiteSpace t = true) (b : Nat)
    (hb : b < 0x80) (hs : IsSpace b = true) : b ∉ t := by
  intro hmem
  obtain ⟨x, y, ht⟩ := List.append_of_mem hmem
  have hw : IsSpaceEnc [b] := by
    refine ⟨by simp, ?_, ?_⟩ <;> rw [decode_ascii b [] hb]
    · exact hs
    · rfl
  have := noWhiteSpace_append_space x [b] y hw
  rw [List.append_assoc, List.singleton_append, ← ht, h] at this
  cases this

/-! ## Removing the newlines -/

theorem str_newline : str "\n" = [10] := by decide

theorem replaceLoop_newline (n : Nat) (s : GoString) (h : s.length ≤ n) :
    replaceLoop n s [10] [] = s.filter (fun b => b != 10) := by
  induction n generalizing s with
  | zero =>
    have : s = [] := List.length_eq_zero.1 (by omega)
    subst this
    rfl
  | succ n ih =>
    rcases s with _ | ⟨a, rest⟩
    · rfl
    · simp only [List.length_cons] at h
      simp only [replaceLoop, HasPrefix, Bool.and_true, decide_eq_true_eq, List.length_singleton,
        List.drop_succ_cons, List.drop_zero, List.nil_append]
      rw [ih rest (by omega)]
      by_cases ha : a = 10
      · simp [ha]
      · simp [ha]

/-- The sanitisation removes every byte 0x0A from the trimmed token. -/
theorem sanitizeEp_eq_filter (ep : GoString) :
    sanitizeEp ep = (TrimSpace ep).filter (fun b => b != 10) := by
  unfold sanitizeEp ReplaceAll
  rw [str_newline]
  exact replaceLoop_newline _ _ (le_refl _)

/-! ## The trimming of a token between white space -/

theorem trimSpace_between (l t r : GoString) (hl : whiteSpaceOnly l = true)
    (hr : whiteSpaceOnly r = true) (ht : noWhiteSpace t = true) :
    TrimSpace (l ++ t ++ r) = t := by
  have hL := spaceRun_of_whiteSpaceOnly l hl
  have hR := spaceRun_of_whiteSpaceOnly r hr
  unfold TrimSpace
  rw [List.append_assoc, trimLeftSpace_spaceRun l (t ++ r) hL]
  by_cases hne : t = []
  · subst hne
    have := trimLeftSpace_spaceRun r [] hR
    rw [List.append_nil] at this
    rw [List.nil_append, this]
    rfl
  · have e := decode_append_start t r hne (spaceRun_head r hR)
    have hq : IsSpace (DecodeRuneInString (t ++ r)).1 = false := by
      rw [e]; exact noWhiteSpace_decode t ht hne
    rw [trimLeftSpace_id _ (Or.inr hq)]
    exact trimRightSpace_spaceRun t r hR (Or.inr (noWhiteSpace_decodeLast t ht))

theorem sanitizeEp_between (l t r : GoString) (hl : whiteSpaceOnly l = true)
    (hr : whiteSpaceOnly r = true) (ht : noWhiteSpace t = true) :
    sanitizeEp (l ++ t ++ r) = t := by
  rw [sanitizeEp_eq_filter, trimSpace_between l t r hl hr ht]
  apply List.filter_eq_self.2
  intro b hb
  have := noWhiteSpace_not_mem t ht 10 (by decide) (by decide)
  simp only [bne_iff_ne, ne_eq]
  rintro rfl
  exact this hb

/-! ## What the trimming leaves -/

/-- TrimSpace removes a run of white space at each end and nothing else; what it
leaves is empty, or starts and ends with a rune that is not white space. -/
theorem trimSpace_spec (s : GoString) :
    ∃ l r, SpaceRun l ∧ SpaceRun r ∧ s = l ++ TrimSpace s ++ r ∧
      (TrimSpace s = [] ∨
        (IsSpace (DecodeRuneInString (TrimSpace s)).1 = false ∧
          IsSpace (DecodeLastRuneInString (TrimSpace s)).1 = false)) := by
  obtain ⟨l, hl, hs, hq⟩ := trimLeftSpace_decomp s
  obtain ⟨r, hr, hq2, hp⟩ := trimRightSpace_decomp (TrimLeftSpace s)
  refine ⟨l, r, hl, hr, ?_, ?_⟩
  · unfold TrimSpace
    rw [List.append_assoc, ← hq2, ← hs]
  · by_cases hne : TrimSpace s = []
    · exact Or.inl hne
    · right
      rcases hp with hp | hp
      · exact absurd hp hne
      · refine ⟨?_, hp⟩
        have e := decode_append_start (TrimRightSpace (TrimLeftSpace s)) r hne
          (spaceRun_head r hr)
        rw [← hq2] at e
        rcases hq with hq | hq
        · exfalso
          apply hne
          unfold TrimSpace
          rw [hq]
          rfl
        · unfold TrimSpace
          rw [← e]; exact hq

theorem asciiSpace_isSpace (b : Nat) (h : asciiSpace b = true) : b < 0x80 ∧ IsSpace b = true := by
  simp only [asciiSpace, Bool.or_eq_true, decide_eq_true_eq] at h
  rcases h with ((((h | h) | h) | h) | h) | h <;> subst h <;> decide

theorem decodeLast_ascii (x : GoString) (z : Nat) (h : z < 0x80) :
    DecodeLastRuneInString (x ++ [z]) = (z, 1) := by
  simp [DecodeLastRuneInString, RuneSelf, h]

/-- The sanitised token does not start with a white-space byte below
RuneSelf. -/
theorem sanitizeEp_head (ep : GoString) :
    ∀ b ∈ (sanitizeEp ep).head?, asciiSpace b = false := by
  obtain ⟨l, r, _, _, _, hv⟩ := trimSpace_spec ep
  rw [sanitizeEp_eq_filter]
  rcases hv with hv | ⟨hv, _⟩
  · rw [hv]; simp
  · rcases hT : TrimSpace ep with _ | ⟨a, v⟩
    · simp
    · rw [hT] at hv
      have ha : asciiSpace a = false := by
        by_contra hc
        have hc2 : asciiSpace a = true := by simpa using hc
        obtain ⟨h1, h2⟩ := asciiSpace_isSpace a hc2
        rw [decode_ascii a v h1, h2] at hv
        cases hv
      have hne : a ≠ 10 := by
        rintro rfl
        simp [asciiSpace] at ha
      intro b hb
      simp only [List.filter_cons, bne_iff_ne, ne_eq, hne, not_false_eq_true, decide_True,
        if_true, List.head?_cons, Option.mem_def, Option.some.injEq] at hb
      rw [← hb]; exact ha

/-- The sanitised token does not end with a white-space byte below RuneSelf. -/
theorem sanitizeEp_last (ep : GoString) :
    ∀ b ∈ (sanitizeEp ep).getLast?, asciiSpace b = false := by
  obtain ⟨l, r, _, _, _, hv⟩ := trimSpace_spec ep
  rw [sanitizeEp_eq_filter]
  rcases hv with hv | ⟨_, hv⟩
  · rw [hv]; simp
  · rcases List.eq_nil_or_concat (TrimSpace ep) with hT | ⟨v, z, hT⟩
    · rw [hT]; simp
    · rw [hT, List.concat_eq_append] at hv ⊢
      have hz : asciiSpace z = false := by
        by_contra hc
        have hc2 : asciiSpace z = true := by simpa using hc
        obtain ⟨h1, h2⟩ := asciiSpace_isSpace z hc2
        rw [decodeLast_ascii v z h1, h2] at hv
        cases hv
      have hne : z ≠ 10 := by
        rintro rfl
        simp [asciiSpace] at hz
      intro b hb
      have hf : List.filter (fun b => b != 10) (v ++ [z]) =
          List.filter (fun b => b != 10) v ++ [z] := by
        simp [List.filter_append, hne]
      rw [hf, List.getLast?_append, List.getLast?_singleton] at hb
      simp only [Option.or, Option.mem_def, Option.some.injEq] at hb
      rw [← hb]; exact hz

/-! ## Hexadecimal info hashes -/

theorem runes_ascii (s : GoString) (h : ∀ b ∈ s, b < 0x80) : runes s = s := by
  induction s with
  | nil => rfl
  | cons a t ih =>
    have ha : a < 0x80 := h a (List.mem_cons_self _ _)
    rw [runes_cons, decode_ascii a t ha]
    simp only [List.drop_succ_cons, List.drop_zero]
    rw [ih (fun b hb => h b (List.mem_cons_of_mem _ hb))]

theorem hexDigit_plain (n : Nat) (h : n < 16) :
    hexDigit n < 0x80 ∧ IsSpace (hexDigit n) = false := by
  unfold hexDigit
  split_ifs
  · refine ⟨by omega, ?_⟩
    simp only [IsSpace, Bool.or_eq_false_iff, Bool.and_eq_false_imp, decide_eq_true_eq,
      decide_eq_false_iff_not]
    omega
  · refine ⟨by omega, ?_⟩
    simp only [IsSpace, Bool.or_eq_false_iff, Bool.and_eq_false_imp, decide_eq_true_eq,
      decide_eq_false_iff_not]
    omega

theorem hexString_plain (h : Hash) :
    ∀ b ∈ h.HexString, b < 0x80 ∧ IsSpace b = false := by
  intro b hb
  simp only [Hash.HexString, List.mem_flatMap, List.mem_cons, List.mem_singleton,
    List.not_mem_nil, or_false] at hb
  obtain ⟨x, _, hx | hx⟩ := hb
  · rw [hx]; exact hexDigit_plain _ (Nat.mod_lt _ (by decide))
  · rw [hx]; exact hexDigit_plain _ (Nat.mod_lt _ (by decide))

/-- The hex rendering of an info hash contains no white space. -/
theorem noWhiteSpace_hexString (h : Hash) : noWhiteSpace h.HexString = true := by
  unfold noWhiteSpace
  rw [runes_ascii _ (fun b hb => (hexString_plain h b hb).1)]
  rw [List.all_eq_true]
  intro b hb
  rw [(hexString_plain h b hb).2]
  rfl

/-! ## Tokens that are valid UTF-8 -/

theorem validLoop_fuel (n m : Nat) (s : GoString) (hn : s.length ≤ n) (hm : s.length ≤ m) :
    validLoop n s = validLoop m s := by
  induction n generalizing m s with
  | zero =>
    have : s = [] := List.length_eq_zero.1 (by omega)
    subst this
    cases m <;> rfl
  | succ n ih =>
    rcases s with _ | ⟨a, t⟩
    · cases m <;> rfl
    · cases m with
      | zero => simp at hm
      | succ m =>
        have hw := decode_width (a :: t) (by simp)
        simp only [validLoop]
        split_ifs
        · rfl
        · apply ih <;> simp only [List.length_drop, List.length_cons] at * <;> omega

/-- A valid non-empty string starts with a rune decoded without error, and
what follows that rune is valid. -/
theorem validString_first (s : GoString) (h : ValidString s = true) (hne : s ≠ []) :
    DecodeRuneInString s ≠ (RuneError, 1) ∧
      ValidString (s.drop (DecodeRuneInString s).2) = true := by
  rcases s with _ | ⟨a, t⟩
  · exact absurd rfl hne
  have hw := decode_width (a :: t) (by simp)
  simp only [ValidString, List.length_cons, validLoop] at h
  split_ifs at h with he
  refine ⟨he, ?_⟩
  rw [← h]
  apply validLoop_fuel <;> simp only [List.length_drop, List.length_cons] at * <;> omega

theorem validString_of_first (s : GoString) (hne : s ≠ [])
    (h1 : DecodeRuneInString s ≠ (RuneError, 1))
    (h2 : ValidString (s.drop (DecodeRuneInString s).2) = true) : ValidString s = true := by
  rcases s with _ | ⟨a, t⟩
  · exact absurd rfl hne
  have hw := decode_width (a :: t) (by simp)
  simp only [ValidString, List.length_cons, validLoop, h1, if_false]
  rw [← h2]
  apply validLoop_fuel <;> simp only [List.length_drop, List.length_cons] at * <;> omega

theorem validString_drop_validEnc (w rest : GoString) (hw : ValidEnc w)
    (h : ValidString (w ++ rest) = true) : ValidString rest = true := by
  obtain ⟨hne, herr, hlen⟩ := hw
  have h2 := (validString_first (w ++ rest) h (by simp [hne])).2
  rw [decode_append_of_valid w rest hne herr, hlen, List.drop_left] at h2
  exact h2

/-- Valid UTF-8 stays valid when a run of white space is taken off its front. -/
theorem validString_drop_spaceRun (l rest : GoString) (hl : SpaceRun l)
    (h : ValidString (l ++ rest) = true) : ValidString rest = true := by
  induction hl generalizing rest with
  | nil => simpa using h
  | snoc r w _ hw ih =>
    rw [List.append_assoc] at h
    exact validString_drop_validEnc w rest (validEnc_of_space w hw) (ih _ h)

/-- Valid UTF-8 stays valid when a run of white space is taken off its end. -/
theorem validString_take_spaceRun (v r : GoString) (hr : SpaceRun r)
    (h : ValidString (v ++ r) = true) : ValidString v = true := by
  suffices H : ∀ n (v : GoString), v.length = n → ValidString (v ++ r) = true →
      ValidString v = true from H _ v rfl h
  intro n
  induction n using Nat.strong_induction_on with
  | _ n ih =>
    intro v hn h
    by_cases hne : v = []
    · subst hne; rfl
    · have e := decode_append_start v r hne (spaceRun_head r hr)
      have hw := decode_width v hne
      obtain ⟨h1, h2⟩ := validString_first (v ++ r) h (by simp [hne])
      rw [e] at h1 h2
      rw [List.drop_append_of_le_length hw.2] at h2
      refine validString_of_first v hne h1 (ih _ ?_ _ rfl h2)
      simp only [List.length_drop]
      omega

/-- A valid non-empty string ends with one well-formed character. -/
theorem validString_last (v : GoString) (h : ValidString v = true) (hne : v ≠ []) :
    ∃ v0 w, v = v0 ++ w ∧ ValidEnc w := by
  suffices H : ∀ n (v : GoString), v.length = n → ValidString v = true → v ≠ [] →
      ∃ v0 w, v = v0 ++ w ∧ ValidEnc w from H _ v rfl h hne
  intro n
  induction n using Nat.strong_induction_on with
  | _ n ih =>
    intro v hn h hne
    have hw := decode_width v hne
    obtain ⟨h1, h2⟩ := validString_first v h hne
    obtain ⟨hv, _⟩ := validEnc_take v hne h1
    by_cases hrest : v.drop (DecodeRuneInString v).2 = []
    · refine ⟨[], v.take (DecodeRuneInString v).2, ?_, hv⟩
      have := List.take_append_drop (DecodeRuneInString v).2 v
      rw [hrest, List.append_nil] at this
      simp [this]
    · have hlt : (v.drop (DecodeRuneInString v).2).length < n := by
        simp only [List.length_drop]
        omega
      obtain ⟨v0, w, hv0, hw0⟩ := ih _ hlt _ rfl h2 hrest
      refine ⟨v.take (DecodeRuneInString v).2 ++ v0, w, ?_, hw0⟩
      rw [List.append_assoc, ← hv0, List.take_append_drop]

/-- One well-formed character other than the line feed holds no byte 0x0A. -/
theorem validEnc_filter (w : GoString) (hw : ValidEnc w)
    (h10 : (DecodeRuneInString w).1 ≠ 10) : w.filter (fun b => b != 10) = w := by
  apply List.filter_eq_self.2
  obtain ⟨hne, herr, hlen⟩ := hw
  rcases w with _ | ⟨a, rest⟩
  · exact absurd rfl hne
  rcases decode_cases a rest with ⟨h1, e⟩ | ⟨_, e⟩ | ⟨b, r, rfl, h1, h2, h3, h4, e⟩ |
    ⟨b, c, r, rfl, h1, h2, h3, h4, h5, h6, e⟩ |
    ⟨b, c, d, r, rfl, h1, h2, h3, h4, h5, h6, h7, h8, e⟩
  · rw [e] at hlen h10
    simp only [List.length_cons] at hlen
    have : rest = [] := List.length_eq_zero.1 (by omega)
    subst this
    intro x hx
    simp only [List.mem_singleton] at hx
    subst hx
    simpa using h10
  · exact absurd e herr
  all_goals
    have hlo := acceptLo_ge a
    have hhi := acceptHi_le a
    rw [e] at hlen
    simp only [List.length_cons] at hlen
    have : r = [] := List.length_eq_zero.1 (by omega)
    subst this
    intro x hx
    simp only [List.mem_cons, List.mem_singleton, List.not_mem_nil, or_false] at hx
    simp only [bne_iff_ne, ne_eq]
    omega

theorem isSpace_line_feed : IsSpace 10 = true := by decide

/-- The sanitised form of a token that is valid UTF-8 is empty, or starts and
ends with a rune that is not white space. -/
theorem sanitizeEp_valid (ep : GoString) (h : ValidString ep = true) :
    sanitizeEp ep = [] ∨
      (IsSpace (DecodeRuneInString (sanitizeEp ep)).1 = false ∧
        IsSpace (DecodeLastRuneInString (sanitizeEp ep)).1 = false) := by
  obtain ⟨l, r, hl, hr, hs, hv⟩ := trimSpace_spec ep
  rw [sanitizeEp_eq_filter]
  by_cases hne : TrimSpace ep = []
  · left; rw [hne]; rfl
  rcases hv with hv | ⟨hfirst, hlast⟩
  · exact absurd hv hne
  right
  have hvalid : ValidString (TrimSpace ep) = true := by
    rw [hs, List.append_assoc] at h
    exact validString_take_spaceRun _ r hr (validString_drop_spaceRun l _ hl h)
  constructor
  · obtain ⟨h1, _⟩ := validString_first _ hvalid hne
    obtain ⟨w, rest, hsplit, hw, e⟩ : ∃ w rest, TrimSpace ep = w ++ rest ∧ ValidEnc w ∧
        DecodeRuneInString w = DecodeRuneInString (TrimSpace ep) :=
      ⟨_, _, (List.take_append_drop _ _).symm, (validEnc_take _ hne h1).1,
        (validEnc_take _ hne h1).2⟩
    rw [← e] at hfirst
    have h10 : (DecodeRuneInString w).1 ≠ 10 := by
      intro h0
      rw [h0, isSpace_line_feed] at hfirst
      cases hfirst
    rw [hsplit, List.filter_append, validEnc_filter w hw h10,
      decode_append_of_valid w _ hw.1 hw.2.1]
    exact hfirst
  · obtain ⟨v0, w, hv0, hw⟩ := validString_last _ hvalid hne
    rw [hv0] at hlast ⊢
    rw [decodeLast_append_valid v0 w hw] at hlast
    have h10 : (DecodeRuneInString w).1 ≠ 10 := by
      intro h0
      rw [h0, isSpace_line_feed] at hlast
      cases hlast
    rw [List.filter_append, validEnc_filter w hw h10, decodeLast_append_valid _ w hw]
    exact hlast
/-! ## The properties -/

/-- C1: GetVideoFile returns the first file, in listing order, whose path.Ext is
one of the listed extensions (compared as given, so case-sensitively), and it
returns nil exactly when no file of the torrent has such an extension; so nil
for the empty list and for [readme.txt], and movie.mkv for
[readme.txt, movie.mkv]. -/
theorem GetVideoFile_first_listed :
    (∀ t : Torrent, GetVideoFile t = none ↔ ∀ f ∈ t.files, Ext f.path ∉ mediaExtensions) ∧
    (∀ (t : Torrent) (f : File), GetVideoFile t = some f ↔
      ∃ pre post, t.files = pre ++ f :: post ∧ (∀ g ∈ pre, Ext g.path ∉ mediaExtensions) ∧
        Ext f.path ∈ mediaExtensions) ∧
    (∀ h, GetVideoFile ⟨h, []⟩ = none) ∧
    (∀ h, GetVideoFile ⟨h, [fileNamed "readme.txt"]⟩ = none) ∧
    (∀ h, GetVideoFile ⟨h, [fileNamed "readme.txt", fileNamed "movie.mkv"]⟩ =
      some (fileNamed "movie.mkv")) ∧
    (∀ h, GetVideoFile ⟨h, [fileNamed "MOVIE.MKV", fileNamed "b.mp4"]⟩ =
      some (fileNamed "b.mp4")) := by
  refine ⟨fun t => getVideoFileLoop_none t.files, fun t f => getVideoFileLoop_some t.files f,
    ?_, ?_, ?_, ?_⟩
  · intro h; rfl
  · intro h
    show getVideoFileLoop [fileNamed "readme.txt"] = none
    decide
  · intro h
    show getVideoFileLoop [fileNamed "readme.txt", fileNamed "movie.mkv"] = _
    decide
  · intro h
    show getVideoFileLoop [fileNamed "MOVIE.MKV", fileNamed "b.mp4"] = _
    decide

/-- C2, as the claim states it, fails: magnets.torrent does not start with
"magnet:" and is handed to AddMagnet; /data/http-mirror/a.torrent contains
neither "http://" nor "https://" and is handed to AddTorrentURL. -/
theorem AddTorrent_local_paths_misrouted :
    AddTorrent Ingest.AddMagnet Ingest.AddTorrentURL Ingest.AddTorrentFile
        (str "magnets.torrent") = Ingest.AddMagnet (str "magnets.torrent") ∧
    HasPrefix (str "magnets.torrent") (str "magnet:") = false ∧
    AddTorrent Ingest.AddMagnet Ingest.AddTorrentURL Ingest.AddTorrentFile
        (str "/data/http-mirror/a.torrent") =
      Ingest.AddTorrentURL (str "/data/http-mirror/a.torrent") ∧
    Contains (str "/data/http-mirror/a.torrent") (str "http://") = false ∧
    Contains (str "/data/http-mirror/a.torrent") (str "https://") = false := by
  decide

/-- C2, amended: AddTorrent classifies with first-match-wins priority on two
substring tests: AddMagnet if and only if the source starts with "magnet"
(no colon needed); otherwise AddTorrentURL if and only if the source contains
"http" anywhere; otherwise AddTorrentFile.  The source is passed on
unchanged. -/
theorem AddTorrent_dispatch (tor : GoString) :
    (AddTorrent Ingest.AddMagnet Ingest.AddTorrentURL Ingest.AddTorrentFile tor =
        Ingest.AddMagnet tor ↔ str "magnet" <+: tor) ∧
    (AddTorrent Ingest.AddMagnet Ingest.AddTorrentURL Ingest.AddTorrentFile tor =
        Ingest.AddTorrentURL tor ↔ ¬ str "magnet" <+: tor ∧ str "http" <:+: tor) ∧
    (AddTorrent Ingest.AddMagnet Ingest.AddTorrentURL Ingest.AddTorrentFile tor =
        Ingest.AddTorrentFile tor ↔ ¬ str "magnet" <+: tor ∧ ¬ str "http" <:+: tor) := by
  rw [← hasPrefix_iff, ← contains_iff]
  unfold AddTorrent
  by_cases h1 : HasPrefix tor (str "magnet") = true
  · simp [h1]
  · by_cases h2 : Contains tor (str "http") = true
    · simp [h1, h2]
    · simp [h1, h2]

/-- C3, as the claim states it, fails: with the ep parameter absent, empty, or
blank, the handler calls log.Fatal; no 400 (no response at all) is sent. -/
theorem handler_empty_token_no_400 :
    handler ⟨8080, [torrentMkv]⟩ clockFixed none = Outcome.fatal (str "ep is empty") ∧
    handler ⟨8080, [torrentMkv]⟩ clockFixed (some (str "")) =
      Outcome.fatal (str "ep is empty") ∧
    handler ⟨8080, [torrentMkv]⟩ clockFixed (some (str " \n")) =
      Outcome.fatal (str "ep is empty") ∧
    (handler ⟨8080, [torrentMkv]⟩ clockFixed (some (str ""))).statusCode ≠ some 400 := by
  decide

/-- C3, amended: for every request whose ep token is missing or empty after
sanitisation, the handler examines no torrent and writes no response: it calls
log.Fatal("ep is empty"), which ends the process. -/
theorem handler_empty_token_fatal (c : Client) (now : Torrent → Int) (ep : Option GoString)
    (h : sanitizeEp (ep.getD []) = []) :
    handler c now ep = Outcome.fatal (str "ep is empty") ∧ (handler c now ep).statusCode = none := by
  have : handler c now ep = Outcome.fatal (str "ep is empty") := by
    simp only [handler, h, if_true]
  rw [this]
  exact ⟨rfl, rfl⟩

/-- The amended C3 at a blank token. -/
theorem handler_empty_token_fatal_witness :
    sanitizeEp ((some (str " \n")).getD []) = [] ∧
    handler ⟨8080, [torrentMkv]⟩ clockFixed (some (str " \n")) =
      Outcome.fatal (str "ep is empty") ∧
    (handler ⟨8080, [torrentMkv]⟩ clockFixed (some (str " \n"))).statusCode = none :=
  ⟨by decide, handler_empty_token_fatal ⟨8080, [torrentMkv]⟩ clockFixed (some (str " \n")) (by decide)⟩

/-- C4, as the claim states it, fails: for ep = deadbeef and no matching
torrent (none registered, or only others) the handler returns having written
nothing, which net/http answers with 200 and an empty body, not with 404. -/
theorem handler_no_match_not_404 :
    handler ⟨8080, []⟩ clockFixed (some (str "deadbeef")) = Outcome.returned ⟨none, []⟩ [] ∧
    (handler ⟨8080, []⟩ clockFixed (some (str "deadbeef"))).statusCode = some 200 ∧
    (handler ⟨8080, [torrentMkv]⟩ clockFixed (some (str "deadbeef"))).statusCode = some 200 ∧
    (handler ⟨8080, [torrentMkv]⟩ clockFixed (some (str "deadbeef"))).contentType = none := by
  decide

/-- C4, amended: for every non-empty sanitised token and every set of
registered torrents (the empty set too) none of which has the token as its hex
info hash, the handler returns without setting a header or serving anything,
having printed one comparison line per torrent; the response is then the
default 200 with an empty body, and the process goes on. -/
theorem handler_no_match_returns (c : Client) (now : Torrent → Int)
    (ep : Option GoString)
    (hne : sanitizeEp (ep.getD []) ≠ [])
    (hno : ∀ t ∈ c.torrentClient, t.infoHash.HexString ≠ sanitizeEp (ep.getD [])) :
    handler c now ep =
      Outcome.returned ⟨none, []⟩
        (c.torrentClient.map
          (fun t => logLine t.infoHash.HexString (sanitizeEp (ep.getD [])))) ∧
    (handler c now ep).statusCode = some 200 ∧ (handler c now ep).contentType = none := by
  have : handler c now ep =
      Outcome.returned ⟨none, []⟩
        (c.torrentClient.map
          (fun t => logLine t.infoHash.HexString (sanitizeEp (ep.getD [])))) := by
    simp only [handler, hne, if_false]
    rw [handlerLoop_no_match _ _ _ _ _ hno]
    simp
  rw [this]
  exact ⟨rfl, rfl, rfl⟩

/-- The amended C4 at the token deadbeef and one registered torrent. -/
theorem handler_no_match_returns_witness :
    handler ⟨8080, [torrentMkv]⟩ clockFixed (some (str "deadbeef\n")) =
      Outcome.returned ⟨none, []⟩
        ([torrentMkv].map (fun t =>
          logLine t.infoHash.HexString (sanitizeEp ((some (str "deadbeef\n")).getD [])))) ∧
    (handler ⟨8080, [torrentMkv]⟩ clockFixed (some (str "deadbeef\n"))).statusCode = some 200 ∧
    (handler ⟨8080, [torrentMkv]⟩ clockFixed (some (str "deadbeef\n"))).contentType = none :=
  handler_no_match_returns ⟨8080, [torrentMkv]⟩ clockFixed (some (str "deadbeef\n")) (by decide) (by decide)

/-- C5: the code at the failing input.  The token is the hex info hash of a
registered torrent whose only file is readme.txt: GetVideoFile returns nil, the
handler sets the header and then calls DisplayPath on the nil file; no 404 is
sent. -/
theorem handler_no_playable_file_nil_dereference :
    GetVideoFile torrentReadme = none ∧
    handler ⟨8080, [torrentMkv, torrentReadme]⟩ clockFixed
        (some torrentReadme.infoHash.HexString) =
      Outcome.nilDereference ⟨some (str "video/mp4"), []⟩
        [logLine torrentMkv.infoHash.HexString torrentReadme.infoHash.HexString,
         logLine torrentReadme.infoHash.HexString torrentReadme.infoHash.HexString] ∧
    (handler ⟨8080, [torrentMkv, torrentReadme]⟩ clockFixed
      (some torrentReadme.infoHash.HexString)).statusCode = none := by
  decide

/-- C6, as the claim states it, fails: the torrent with files readme.txt and
movie.mkv is served with Content-Type video/mp4, and two torrents whose
selected files are movie.mkv and clip.mp4 get the same Content-Type. -/
theorem handler_content_type_same_for_mkv_and_mp4 :
    GetVideoFile torrentMkv = some (fileNamed "movie.mkv") ∧
    GetVideoFile torrentMp4 = some (fileNamed "clip.mp4") ∧
    (handler ⟨8080, [torrentMkv, torrentMp4]⟩ clockFixed
      (some torrentMkv.infoHash.HexString)).contentType = some (str "video/mp4") ∧
    (handler ⟨8080, [torrentMkv, torrentMp4]⟩ clockFixed
      (some torrentMp4.infoHash.HexString)).contentType =
      (handler ⟨8080, [torrentMkv, torrentMp4]⟩ clockFixed
        (some torrentMkv.infoHash.HexString)).contentType := by
  decide

/-- C6, amended: for every request that matches a registered torrent with a
playable file (the registered torrents having their metadata ready and pairwise
different hex info hashes), the Content-Type the handler sets is the fixed
constant video/mp4, whatever the extension of the selected file, and the
selected file is served once, with that header. -/
theorem handler_content_type_constant (c : Client) (now : Torrent → Int)
    (ep : Option GoString) (t : Torrent) (f : File) (ht : t ∈ c.torrentClient)
    (hnd : (c.torrentClient.map (fun x => x.infoHash.HexString)).Nodup)
    (hne : sanitizeEp (ep.getD []) ≠ [])
    (hep : t.infoHash.HexString = sanitizeEp (ep.getD []))
    (hf : GetVideoFile t = some f) :
    (handler c now ep).contentType = some (str "video/mp4") ∧
    (∃ w out, handler c now ep = Outcome.returned w out ∧
      w.contentType = some (str "video/mp4") ∧
      w.served.map (fun s => (s.file, s.contentType)) = [(f, some (str "video/mp4"))]) := by
  have : handler c now ep =
      Outcome.returned
        ⟨some (str "video/mp4"),
          [⟨f.displayPath, now t, some (str "video/mp4"), f⟩]⟩
        (c.torrentClient.map
          (fun x => logLine x.infoHash.HexString (sanitizeEp (ep.getD [])))) := by
    simp only [handler, hne, if_false]
    rw [handlerLoop_match _ _ _ _ _ t f ht hnd hep hf]
    simp
  rw [this]
  exact ⟨rfl, _, _, rfl, rfl, rfl⟩

/-- The amended C6 at the torrent with files readme.txt and movie.mkv. -/
theorem handler_content_type_constant_witness :
    (handler ⟨8080, [torrentMkv, torrentMp4]⟩ clockFixed
      (some torrentMkv.infoHash.HexString)).contentType = some (str "video/mp4") ∧
    (∃ w out, handler ⟨8080, [torrentMkv, torrentMp4]⟩ clockFixed
        (some torrentMkv.infoHash.HexString) = Outcome.returned w out ∧
      w.contentType = some (str "video/mp4") ∧
      w.served.map (fun s => (s.file, s.contentType)) =
        [(fileNamed "movie.mkv", some (str "video/mp4"))]) :=
  handler_content_type_constant ⟨8080, [torrentMkv, torrentMp4]⟩ clockFixed
    (some torrentMkv.infoHash.HexString) torrentMkv (fileNamed "movie.mkv")
    (by decide) (by decide) (by decide) (by decide) (by decide)

/-- C7: the code at the failing input.  The client holds torrentMkv;
FindByInfoHhash called with its canonical 40-character hex info hash (the form
the handler compares with and ServeTorrent puts in links) returns the
not-found error; it finds the torrent only under the raw 20-byte form. -/
theorem FindByInfoHhash_hex_not_found :
    torrentMkv.infoHash.HexString = str "abababababababababababababababababababab" ∧
    FindByInfoHhash ⟨8080, [torrentMkv]⟩ torrentMkv.infoHash.HexString =
      Except.error (str "No torrents match info hash: abababababababababababababababababababab") ∧
    FindByInfoHhash ⟨8080, [torrentMkv]⟩ torrentMkv.infoHash.AsString = Except.ok torrentMkv ∧
    handler ⟨8080, [torrentMkv]⟩ clockFixed (some torrentMkv.infoHash.HexString) =
      Outcome.returned
        ⟨some (str "video/mp4"),
          [⟨str "movie.mkv", clockFixed torrentMkv, some (str "video/mp4"),
            fileNamed "movie.mkv"⟩]⟩
        [logLine torrentMkv.infoHash.HexString torrentMkv.infoHash.HexString] := by
  refine ⟨by decide, by decide, by decide, by decide⟩

/-- C10, as the claim states it, fails: the fetch answers 500, the body is one
the engine accepts as a metafile, and AddTorrentURL (also through AddTorrent)
returns the torrent without error and the engine holds it. -/
theorem AddTorrentURL_status_500_registers :
    (world500.httpGet (str "http://example.com/a.torrent")).toOption.map
      (fun r => r.statusCode) = some 500 ∧
    AddTorrentURL world500 ⟨8080, []⟩ (str "http://example.com/a.torrent") =
      (Except.ok torrentMkv, ⟨8080, [torrentMkv]⟩) ∧
    AddTorrent (AddMagnet world500 ⟨8080, []⟩) (AddTorrentURL world500 ⟨8080, []⟩)
        (AddTorrentFile world500 ⟨8080, []⟩) (str "http://example.com/a.torrent") =
      (Except.ok torrentMkv, ⟨8080, [torrentMkv]⟩) := by
  refine ⟨by decide, by decide, by decide⟩

/-- C10, amended: AddTorrentURL (and AddTorrent when it dispatches to it) never
reads the status code: its result is the same for every status the response
carries.  It returns the error, and the torrents held by the engine are
unchanged, when http.Get returns no response, when the local file cannot be
created, when the copy of the body fails, and when the engine rejects the copied
bytes as a metafile; in every other case, that is whenever a response was
obtained (with any status), the file was created, the body was copied
completely and the engine accepted it, the torrent is added to the engine and
returned without error. -/
theorem AddTorrentURL_ignores_status (W : World) (c : Client) (url : GoString) :
    (∀ err, W.httpGet url = Except.error err →
      AddTorrentURL W c url = (Except.error err, c)) ∧
    (∀ resp err, W.httpGet url = Except.ok resp → W.osCreate (Base url) = some err →
      AddTorrentURL W c url = (Except.error err, c)) ∧
    (∀ resp err, W.httpGet url = Except.ok resp → W.osCreate (Base url) = none →
      resp.bodyErr = some err → AddTorrentURL W c url = (Except.error err, c)) ∧
    (∀ resp err, W.httpGet url = Except.ok resp → W.osCreate (Base url) = none →
      resp.bodyErr = none → W.loadMetainfo resp.body = Except.error err →
      AddTorrentURL W c url = (Except.error err, c)) ∧
    (∀ resp t0, W.httpGet url = Except.ok resp → W.osCreate (Base url) = none →
      resp.bodyErr = none → W.loadMetainfo resp.body = Except.ok t0 →
      AddTorrentURL W c url = (Except.ok (engineAdd c t0).1, (engineAdd c t0).2) ∧
        (engineAdd c t0).1 ∈ (engineAdd c t0).2.torrentClient ∧
        (engineAdd c t0).1.infoHash = t0.infoHash ∧
        ((∀ t1 ∈ c.torrentClient, t1.infoHash ≠ t0.infoHash) →
          AddTorrentURL W c url =
            (Except.ok t0, { c with torrentClient := c.torrentClient ++ [t0] }))) ∧
    (∀ (resp : Response) (status : Nat) (W2 : World), W.httpGet url = Except.ok resp →
      W2.httpGet url = Except.ok { resp with statusCode := status } →
      W2.osCreate = W.osCreate → W2.loadMetainfo = W.loadMetainfo →
      AddTorrentURL W2 c url = AddTorrentURL W c url) ∧
    (HasPrefix url (str "magnet") = false → Contains url (str "http") = true →
      AddTorrent (AddMagnet W c) (AddTorrentURL W c) (AddTorrentFile W c) url =
        AddTorrentURL W c url) := by
  refine ⟨?_, ?_, ?_, ?_, ?_, ?_, ?_⟩
  · intro err h1
    simp only [AddTorrentURL, h1]
  · intro resp err h1 h2
    simp only [AddTorrentURL, h1, h2]
  · intro resp err h1 h2 h3
    simp only [AddTorrentURL, h1, h2, h3]
  · intro resp err h1 h2 h3 h4
    simp only [AddTorrentURL, h1, h2, h3, h4]
  · intro resp t0 h1 h2 h3 h4
    refine ⟨?_, (engineAdd_mem c t0).1, (engineAdd_mem c t0).2, ?_⟩
    · simp only [AddTorrentURL, h1, h2, h3, h4]
    · intro hnew
      have hfind : c.torrentClient.find? (fun t1 => t1.infoHash = t0.infoHash) = none := by
        rw [List.find?_eq_none]
        intro t1 ht1
        simpa using hnew t1 ht1
      simp only [AddTorrentURL, h1, h2, h3, h4, engineAdd, hfind]
  · intro resp status W2 h1 h2 h3 h4
    unfold AddTorrentURL
    simp only [h1, h2, h3, h4]
  · intro hm hh
    simp [AddTorrent, hm, hh]

/-- The amended C10 at a fetch that answers 500 with a metafile body, into an
engine that holds no torrent. -/
theorem AddTorrentURL_ignores_status_witness :
    AddTorrentURL world500 ⟨8080, []⟩ (str "http://example.com/a.torrent") =
      (Except.ok torrentMkv,
        { (⟨8080, []⟩ : Client) with
          torrentClient := (⟨8080, []⟩ : Client).torrentClient ++ [torrentMkv] }) :=
  ((AddTorrentURL_ignores_status world500 ⟨8080, []⟩
      (str "http://example.com/a.torrent")).2.2.2.2.1
    ⟨500, str "d4:infoe", none⟩ torrentMkv (by decide) (by decide) (by decide)
    (by decide)).2.2.2 (by decide)

/-- C8: the sanitisation of the ep token (TrimSpace, then the newlines removed)
maps "\nabc123 " to "abc123"; for every token t without white-space characters
and all strings l and r of white-space characters only, sanitising l ++ t ++ r
yields exactly t; so the token of a ServeTorrent link, the hex info hash
followed by "\n", is sanitised to the hex info hash. -/
theorem sanitizeEp_token :
    sanitizeEp (str "\nabc123 ") = str "abc123" ∧
    (∀ l t r : GoString, whiteSpaceOnly l = true → whiteSpaceOnly r = true →
      noWhiteSpace t = true → sanitizeEp (l ++ t ++ r) = t) ∧
    (∀ (c : Client) (t : Torrent),
      ServeTorrent c t =
        str "http://localhost:" ++ str (toString c.Port) ++ str "/stream?ep=" ++
          (t.infoHash.HexString ++ str "\n") ∧
      sanitizeEp (t.infoHash.HexString ++ str "\n") = t.infoHash.HexString) := by
  refine ⟨by decide, sanitizeEp_between, ?_⟩
  intro c t
  constructor
  · simp only [ServeTorrent, List.append_assoc]
  · have := sanitizeEp_between [] t.infoHash.HexString (str "\n") (by decide) (by decide)
      (noWhiteSpace_hexString t.infoHash)
    simpa using this

/-- C8 at a token with a non-ASCII character between Unicode and ASCII white
space. -/
theorem sanitizeEp_token_witness :
    whiteSpaceOnly [0xE2, 0x80, 0xA8, 0x20, 0x09] = true ∧
    whiteSpaceOnly (str "\r\n") = true ∧
    noWhiteSpace (str "ab-€-12") = true ∧
    sanitizeEp ([0xE2, 0x80, 0xA8, 0x20, 0x09] ++ str "ab-€-12" ++ str "\r\n") =
      str "ab-€-12" :=
  ⟨by decide, by decide, by decide,
    sanitizeEp_token.2.1 [0xE2, 0x80, 0xA8, 0x20, 0x09] (str "ab-€-12") (str "\r\n")
      (by decide) (by decide) (by decide)⟩

/-- C9, as the claim states it, fails: a tab, a carriage return, a NUL or a DEL
inside the token, and a NUL at its ends, are kept; and for the bytes C2 0A 85
(which are no valid UTF-8) the removal of the newline leaves C2 85, the
white-space character U+0085, so that the sanitised token starts with white
space. -/
theorem sanitizeEp_keeps_control_characters :
    sanitizeEp (str "a\tb") = str "a\tb" ∧
    sanitizeEp (str "a\rb") = str "a\rb" ∧
    sanitizeEp [0x61, 0x00, 0x7F, 0x62] = [0x61, 0x00, 0x7F, 0x62] ∧
    sanitizeEp [0x00, 0x61, 0x1B] = [0x00, 0x61, 0x1B] ∧
    sanitizeEp [0xC2, 0x0A, 0x85] = [0xC2, 0x85] ∧
    IsSpace (DecodeRuneInString [0xC2, 0x85]).1 = true ∧
    ValidString [0xC2, 0x0A, 0x85] = false := by
  decide

/-- C9, amended: for every input ep token, the sanitised token that the handler
compares and logs is the trimmed token with every line feed deleted: it
contains no line feed at all, wherever one occurred in the input; it neither
starts nor ends with one of the white-space bytes tab, line feed, vertical tab,
form feed, carriage return and space; and when the input is valid UTF-8 it is
empty or starts and ends with a character that is not white space.  Other
control characters are not removed. -/
theorem sanitizeEp_no_line_feed (ep : GoString) :
    sanitizeEp ep = (TrimSpace ep).filter (fun b => b != 0x0A) ∧
    0x0A ∉ sanitizeEp ep ∧
    (∀ b ∈ (sanitizeEp ep).head?, asciiSpace b = false) ∧
    (∀ b ∈ (sanitizeEp ep).getLast?, asciiSpace b = false) ∧
    (ValidString ep = true →
      sanitizeEp ep = [] ∨
        (IsSpace (DecodeRuneInString (sanitizeEp ep)).1 = false ∧
          IsSpace (DecodeLastRuneInString (sanitizeEp ep)).1 = false)) := by
  refine ⟨sanitizeEp_eq_filter ep, ?_, sanitizeEp_head ep, sanitizeEp_last ep,
    sanitizeEp_valid ep⟩
  rw [sanitizeEp_eq_filter]
  simp [List.mem_filter]

/-- The amended C9 at the valid UTF-8 token NBSP, space, "a", tab, line feed,
"b", line feed, U+2028. -/
theorem sanitizeEp_no_line_feed_witness :
    ValidString ([0xC2, 0xA0] ++ str " a\t\nb\n" ++ [0xE2, 0x80, 0xA8]) = true ∧
    (sanitizeEp ([0xC2, 0xA0] ++ str " a\t\nb\n" ++ [0xE2, 0x80, 0xA8]) = [] ∨
      (IsSpace (DecodeRuneInString
          (sanitizeEp ([0xC2, 0xA0] ++ str " a\t\nb\n" ++ [0xE2, 0x80, 0xA8]))).1 = false ∧
        IsSpace (DecodeLastRuneInString
          (sanitizeEp ([0xC2, 0xA0] ++ str " a\t\nb\n" ++ [0xE2, 0x80, 0xA8]))).1 = false)) :=
  ⟨by decide,
    (sanitizeEp_no_line_feed ([0xC2, 0xA0] ++ str " a\t\nb\n" ++ [0xE2, 0x80, 0xA8])).2.2.2.2
      (by decide)⟩

end Libtorrent
